import Mathlib

/-! Verification of emby-cleaner: retention policy, keep-latest selection and empty-folder
pruning, over a shallow embedding of `main.go`.

* Go `string` is `String`, `[]string` is `List String`, `bool` is `Bool`.
* Go `int` is `Int`; the one arithmetic expression of the pipeline that can leave the 64-bit
  range (`len(episodes) - keepCount`) is wrapped explicitly by `wrapInt64`.
* `time.Time` values are compared by their instant, so a time is an `Int` (nanoseconds since
  the Unix epoch) and `t.After(u)` is `u < t`.
* Functions of the Go standard library that the program calls (`strings.EqualFold`,
  `time.Parse`, `Time.AddDate`, path resolution of the operating system) are the fields of
  `Lib`; every theorem holds for every `Lib`. The one fact assumed of them is that the empty
  string is not an RFC3339 date-time.
* The order in which `range` enumerates a Go map is not fixed by the language: it is a field
  of `Env`, of which only that it visits every entry once is assumed.
* The filesystem is a tree of named entries (`Node`); a path is the list of its components.
-/

namespace EmbyCleaner

/-! ## Data model -/

/-- Instants of `time.Time`: nanoseconds since the Unix epoch. -/
abbrev Time := Int

/-- Nanoseconds in 24 hours. -/
def nsPerDay : Int := 86400 * 1000000000

/-- A cleaned path, as the list of its components below the filesystem root. -/
abbrev Path := List String

/-- The standard-library functions the program relies on. -/
structure Lib where
  /-- The function `strings.EqualFold s t`. -/
  equalFold : String → String → Bool
  /-- The call `time.Parse(time.RFC3339, s)`: `none` when it returns an error. -/
  parseRFC3339 : String → Option Time
  /-- The call `t.AddDate(0, 0, days)`. -/
  addDays : Time → Int → Time
  /-- The components of the file the operating system resolves a path string to. -/
  resolve : String → Path
  /-- The empty string is not an RFC3339 date-time. -/
  parse_empty : parseRFC3339 "" = none

/-- Go struct `UserData` (`PlaybackPosition float64` is never read and is left out). -/
structure UserData where
  LastPlayedDate : String
  Played : Bool
  IsFavorite : Bool
deriving DecidableEq, Repr

/-- Go struct `EmbyItem`. -/
structure EmbyItem where
  ID : String
  Name : String
  /-- Go field `Type` (a reserved word here). -/
  Type_ : String
  Path : String
  UserData : UserData
  SeriesName : String
  ParentIndexNumber : Int
  IndexNumber : Int
  SeriesID : String
  SeasonID : String
  Tags : List String
deriving DecidableEq, Repr

/-- The `Cleanup` section of Go struct `Config` (the `Emby` section holds credentials only). -/
structure Config where
  WatchedDaysAgo : Int
  KeepLatestEpisodes : Int
  LibraryNames : List String
  TagFilters : List String
  ProtectTags : List String
  ProtectFavorites : Bool
  DryRun : Bool
  RemoveEmptyFolders : Bool
deriving DecidableEq, Repr

/-! ## Retention policy: `shouldDelete` -/

/-- The nested loop of `shouldDelete` over `ProtectTags` and `item.Tags`: `true` when some
pair makes `strings.EqualFold(itemTag, protectTag)` true (the loop then returns). -/
def tagProtected (L : Lib) (item : EmbyItem) (config : Config) : Bool :=
  config.ProtectTags.any (fun protectTag =>
    item.Tags.any (fun itemTag => L.equalFold itemTag protectTag))

/-- Go `shouldDelete(item, config, watchedCutoff)`. -/
def shouldDelete (L : Lib) (item : EmbyItem) (config : Config) (watchedCutoff : Time) : Bool :=
  if item.UserData.IsFavorite && config.ProtectFavorites then false
  else if item.Type_ ≠ "Episode" then false
  else if item.Path = "" then false
  else if decide (config.ProtectTags.length > 0) && tagProtected L item config then false
  else if !item.UserData.Played then false
  else if item.UserData.LastPlayedDate = "" then false
  else
    match L.parseRFC3339 item.UserData.LastPlayedDate with
    | none => false
    | some lastPlayed =>
      if watchedCutoff < lastPlayed then false
      else true

/-! ## Sorting a series group: `sortEpisodesByIndexNumber` -/

/-- The swap condition of `sortEpisodesByIndexNumber`, for `a = episodes[i]` and
`b = episodes[j]`. -/
def episodeGreater (a b : EmbyItem) : Bool :=
  decide (a.ParentIndexNumber > b.ParentIndexNumber) ||
    (decide (a.ParentIndexNumber = b.ParentIndexNumber) &&
      decide (a.IndexNumber > b.IndexNumber))

/-- One iteration of the inner loop: compare `episodes[i]` with `episodes[j]` and exchange
them when the first is greater. Both indexes are in range in every iteration the loops make;
outside the range the list is returned as it is. -/
def sortStep (i : Nat) (episodes : List EmbyItem) (j : Nat) : List EmbyItem :=
  match episodes[i]?, episodes[j]? with
  | some a, some b => if episodeGreater a b then (episodes.set i b).set j a else episodes
  | _, _ => episodes

/-- The inner loop `for j := i + 1; j < len(episodes); j++`. -/
def sortInner (i : Nat) (episodes : List EmbyItem) : List EmbyItem :=
  (List.range' (i + 1) (episodes.length - (i + 1))).foldl (sortStep i) episodes

/-- Go `sortEpisodesByIndexNumber(episodes)`: the slice after the call. The outer loop is
`for i := 0; i < len(episodes)-1; i++`. -/
def sortEpisodesByIndexNumber (episodes : List EmbyItem) : List EmbyItem :=
  (List.range (episodes.length - 1)).foldl (fun acc i => sortInner i acc) episodes

/-- Ascending order of the pair `(ParentIndexNumber, IndexNumber)`, lexicographically. -/
def keyLe (a b : EmbyItem) : Prop :=
  a.ParentIndexNumber < b.ParentIndexNumber ∨
    (a.ParentIndexNumber = b.ParentIndexNumber ∧ a.IndexNumber ≤ b.IndexNumber)

instance (a b : EmbyItem) : Decidable (keyLe a b) := by
  unfold keyLe; infer_instance

/-- Whether an episode has season index `p` and episode index `n`. -/
def hasIndex (p n : Int) (e : EmbyItem) : Bool :=
  decide (e.ParentIndexNumber = p) && decide (e.IndexNumber = n)

/-- Stability as the specification words it: the episodes of every index pair come out in
their input order. -/
def StableOn (sort : List EmbyItem → List EmbyItem) (episodes : List EmbyItem) : Prop :=
  ∀ p n, (sort episodes).filter (hasIndex p n) = episodes.filter (hasIndex p n)

/-! ## The filesystem -/

/-- A filesystem tree: a file, or a directory with its entries by name, in the order in which
the directory is listed. -/
inductive Node where
  | file : Node
  | dir : List (String × Node) → Node

mutual
/-- The node a path leads to from `n`, when it exists. -/
def Node.lookup : Node → Path → Option Node
  | n, [] => some n
  | .file, _ :: _ => none
  | .dir es, c :: p => lookupEntries es c p
/-- The path `c :: p` looked up in the entries of a directory. -/
def lookupEntries : List (String × Node) → String → Path → Option Node
  | [], _, _ => none
  | (name, n) :: rest, c, p => if name = c then n.lookup p else lookupEntries rest c p
end

mutual
/-- The call `os.Remove(path)` on the tree `n`: the tree without the file or the empty
directory at `path`; `none` when the call returns an error (no such entry, a directory that is
not empty, or the root of the tree). -/
def Node.remove : Node → Path → Option Node
  | _, [] => none
  | .file, _ :: _ => none
  | .dir es, c :: p => (removeEntries es c p).map Node.dir
/-- The call `os.Remove` of the path `c :: p` in the entries of a directory. -/
def removeEntries : List (String × Node) → String → Path → Option (List (String × Node))
  | [], _, _ => none
  | (name, n) :: rest, c, p =>
    if name = c then
      match p with
      | [] =>
        match n with
        | .file => some rest
        | .dir [] => some rest
        | .dir (_ :: _) => none
      | _ :: _ => (n.remove p).map (fun n' => (name, n') :: rest)
    else (removeEntries rest c p).map (fun r => (name, n) :: r)
end

mutual
/-- The directories `filepath.Walk` reports for the tree `n` found at `path`, in the order of
the walk: a directory before its entries, the entries in listing order. These are the paths
the callback of `removeEmptyFolders` appends to `folders`. -/
def walkDirs : Path → Node → List Path
  | _, .file => []
  | path, .dir es => path :: walkEntries path es
/-- The directories of the walk below the entries of the directory at `path`. -/
def walkEntries : Path → List (String × Node) → List Path
  | _, [] => []
  | path, (name, n) :: rest => walkDirs (path ++ [name]) n ++ walkEntries path rest
end

/-- Go `isDirEmpty(path)`: `some true` for a directory without entries, `some false` for one
with entries, `none` when `os.Open` or `Readdirnames` returns an error other than `io.EOF`. -/
def isDirEmpty (fs : Node) (path : Path) : Option Bool :=
  match fs.lookup path with
  | none => none
  | some .file => none
  | some (.dir []) => some true
  | some (.dir (_ :: _)) => some false

/-- The body of the loop of `removeEmptyFolders` for one `folder`. The result of `os.Remove`
is ignored by the program: when it fails the filesystem is as before. -/
def pruneStep (basePath : Path) (fs : Node) (folder : Path) : Node :=
  if folder = basePath then fs
  else
    match isDirEmpty fs folder with
    | some true => (fs.remove folder).getD fs
    | _ => fs

/-- The body of the loop of `removeEmptyFolders` past the test `folder == basePath`. -/
def removeIfEmpty (fs : Node) (folder : Path) : Node :=
  match isDirEmpty fs folder with
  | some true => (fs.remove folder).getD fs
  | _ => fs

/-- Go `removeEmptyFolders(basePath)`: the filesystem after the call, `none` when the call
returns the error of the walk (nothing has been removed then). The loop
`for i := len(folders) - 1; i >= 0; i--` runs through `folders` in reverse. -/
def removeEmptyFolders (basePath : Path) (fs : Node) : Option Node :=
  match fs.lookup basePath with
  | none => none
  | some root => some ((walkDirs basePath root).reverse.foldl (pruneStep basePath) fs)

mutual
/-- The tree `n` with the node at `path`, when there is one, replaced by `n'`. -/
def Node.replace : Node → Path → Node → Node
  | _, [], n' => n'
  | .file, _ :: _, _ => .file
  | .dir es, c :: p, n' => .dir (replaceEntries es c p n')
/-- The entries of a directory with the node at `c :: p` replaced by `n'`. -/
def replaceEntries : List (String × Node) → String → Path → Node → List (String × Node)
  | [], _, _, _ => []
  | (name, n) :: rest, c, p, n' =>
    if name = c then (name, n.replace p n') :: rest
    else (name, n) :: replaceEntries rest c p n'
end

mutual
/-- Whether the tree holds a file. -/
def Node.hasFile : Node → Bool
  | .file => true
  | .dir es => entriesHaveFile es
/-- Whether one of the entries holds a file. -/
def entriesHaveFile : List (String × Node) → Bool
  | [] => false
  | (_, n) :: rest => n.hasFile || entriesHaveFile rest
end

/-- Whether the node is a directory without entries. -/
def Node.isEmptyDir : Node → Bool
  | .dir [] => true
  | _ => false

/-- Whether the node is a directory. -/
def Node.isDir : Node → Bool
  | .file => false
  | .dir _ => true

mutual
/-- The tree `n` without the directories below its root whose subtree holds no file: what
the specification expects of one pruning pass. -/
def Node.prune : Node → Node
  | .file => .file
  | .dir es => .dir (pruneEntries es)
/-- The entries of a directory, pruned, without those that are directories left empty. -/
def pruneEntries : List (String × Node) → List (String × Node)
  | [] => []
  | (name, n) :: rest =>
    if n.prune.isEmptyDir then pruneEntries rest
    else (name, n.prune) :: pruneEntries rest
end

mutual
/-- Well-formed trees: the names in every directory are distinct. -/
def Node.WF : Node → Prop
  | .file => True
  | .dir es => entriesWF es
/-- Well-formed entries: distinct names, well-formed nodes. -/
def entriesWF : List (String × Node) → Prop
  | [] => True
  | (name, n) :: rest => name ∉ rest.map Prod.fst ∧ n.WF ∧ entriesWF rest
end

/-! ## The pipeline of `main` -/

/-- Reduction of an integer to the range of the 64-bit Go `int` (two's complement). -/
def wrapInt64 (x : Int) : Int := (x + 2 ^ 63) % 2 ^ 64 - 2 ^ 63

/-- The parts of the run that are decided outside the program. -/
structure Env where
  /-- The order in which `range` enumerates the entries of the map `seriesEpisodes`. -/
  rangeOrder : List (String × List EmbyItem) → List (String × List EmbyItem)
  /-- Modelled from the spec: the method `client.GetLibraryPath(libID)` (the specification's
  `resolveLibraryPath`), which `main.go` calls and does not define: the root path the server
  reports for a library, possibly empty; `none` when the call returns an error. -/
  getLibraryPath : String → Option String
  /-- A `range` loop visits every entry of the map exactly once. -/
  range_perm : ∀ m, (rangeOrder m).Perm m

/-- A line the deletion loop prints. -/
inductive Event where
  /-- The dry-run report of an episode. -/
  | wouldDelete (e : EmbyItem)
  /-- The report of an episode whose file is about to be removed. -/
  | deleted (e : EmbyItem)
  /-- The report of a failed `os.Remove`. -/
  | deleteFailed (e : EmbyItem)

/-- The episode an event reports as selected for deletion. -/
def Event.item : Event → Option EmbyItem
  | .wouldDelete e => some e
  | .deleted e => some e
  | .deleteFailed _ => none

/-- The state of a run: the filesystem, the lines printed by the deletion loop, and whether
the program has stopped with a run-time panic. -/
structure Run where
  fs : Node
  out : List Event
  crashed : Bool

/-- The episodes the run has acted on (deleted, or reported in dry-run), in order. -/
def Run.selected (r : Run) : List EmbyItem := r.out.filterMap Event.item

/-- The cutoff of the run: `time.Now().AddDate(0, 0, -config.Cleanup.WatchedDaysAgo)`. -/
def watchedCutoff (L : Lib) (config : Config) (now : Time) : Time :=
  L.addDays now (wrapInt64 (-config.WatchedDaysAgo))

/-- The first loop of the pipeline: `itemsToDelete`. -/
def itemsToDelete (L : Lib) (config : Config) (cutoff : Time) (items : List EmbyItem) :
    List EmbyItem :=
  items.filter (fun item => shouldDelete L item config cutoff)

/-- The statement `seriesEpisodes[key] = append(seriesEpisodes[key], item)` on a map held as
a list of entries with distinct keys. -/
def insertEpisode (m : List (String × List EmbyItem)) (item : EmbyItem) :
    List (String × List EmbyItem) :=
  match m with
  | [] => [(item.SeriesID, [item])]
  | (k, v) :: rest =>
    if k = item.SeriesID then (k, v ++ [item]) :: rest
    else (k, v) :: insertEpisode rest item

/-- The map `seriesEpisodes` after the grouping loop. -/
def seriesEpisodes (itemsToDelete : List EmbyItem) : List (String × List EmbyItem) :=
  itemsToDelete.foldl insertEpisode []

/-- The body of the loop `for i := 0; i < deleteCount; i++` for the episode
`e = episodes[i]`: the report, and `os.Remove(e.Path)` unless in dry-run. -/
def deleteOne (L : Lib) (config : Config) (e : EmbyItem) (r : Run) : Run :=
  if config.DryRun then { r with out := r.out ++ [Event.wouldDelete e] }
  else
    match r.fs.remove (L.resolve e.Path) with
    | some fs' => { r with fs := fs', out := r.out ++ [Event.deleted e] }
    | none => { r with out := r.out ++ [Event.deleted e, Event.deleteFailed e] }

/-- The loop `for i := 0; i < deleteCount; i++` over the indexes still to visit. Reading
`episodes[i]` outside the slice is a run-time panic, which ends the program. -/
def deleteLoop (L : Lib) (config : Config) (episodes : List EmbyItem) : List Nat → Run → Run
  | [], r => r
  | i :: rest, r =>
    match episodes[i]? with
    | none => { r with crashed := true }
    | some e => deleteLoop L config episodes rest (deleteOne L config e r)

/-- The body of `for _, episodes := range seriesEpisodes` for one series. -/
def processGroup (L : Lib) (config : Config) (episodes : List EmbyItem) (r : Run) : Run :=
  if (episodes.length : Int) ≤ config.KeepLatestEpisodes then r
  else
    let sorted := sortEpisodesByIndexNumber episodes
    let keepCount := config.KeepLatestEpisodes
    let deleteCount := wrapInt64 ((sorted.length : Int) - keepCount)
    deleteLoop L config sorted (List.range deleteCount.toNat) r

/-- The loop over the series groups, in the order given; a panic ends it. -/
def processGroups (L : Lib) (config : Config) : List (List EmbyItem) → Run → Run
  | [], r => r
  | episodes :: rest, r =>
    let r' := processGroup L config episodes r
    if r'.crashed then r' else processGroups L config rest r'

/-- The loop `for libID := range libraryIDs` of the pruning step. -/
def pruneLibraries (L : Lib) (E : Env) : List String → Node → Node
  | [], fs => fs
  | libID :: rest, fs =>
    match E.getLibraryPath libID with
    | none => pruneLibraries L E rest fs
    | some libPath =>
      if libPath ≠ "" then
        pruneLibraries L E rest ((removeEmptyFolders (L.resolve libPath) fs).getD fs)
      else pruneLibraries L E rest fs

/-- The pipeline of `main` from the fetched `items` on: filter, group, select and delete,
prune. `now` is `time.Now()`, `libraryIDs` the keys of the library set in the order `range`
enumerates them, `fs` the filesystem before the run. -/
def mainPipeline (L : Lib) (E : Env) (config : Config) (items : List EmbyItem) (now : Time)
    (libraryIDs : List String) (fs : Node) : Run :=
  let cutoff := watchedCutoff L config now
  let toDelete := itemsToDelete L config cutoff items
  let groups := E.rangeOrder (seriesEpisodes toDelete)
  let r := processGroups L config (groups.map Prod.snd) { fs := fs, out := [], crashed := false }
  if r.crashed then r
  else if config.RemoveEmptyFolders && !config.DryRun then
    { r with fs := pruneLibraries L E libraryIDs r.fs }
  else r

/-! ## A concrete library, for evaluating the definitions on examples -/

/-- ASCII case folding, the restriction of `strings.EqualFold` to ASCII strings. -/
def asciiEqualFold (s t : String) : Bool :=
  decide (s.toList.map Char.toLower = t.toList.map Char.toLower)

/-- A finite fragment of `time.Parse(time.RFC3339, ·)`: three UTC timestamps and their
instants; every other string is rejected. -/
def sampleParse (s : String) : Option Time :=
  if s = "2024-01-01T00:00:00Z" then some (1704067200 * 1000000000)
  else if s = "2024-01-31T00:00:00Z" then some (1706659200 * 1000000000)
  else if s = "2024-03-01T00:00:00Z" then some (1709251200 * 1000000000)
  else none

/-- A library instance for UTC: `AddDate` shifts by whole days of 24 hours, a path string
is resolved by splitting at `/`. -/
def sampleLib : Lib where
  equalFold := asciiEqualFold
  parseRFC3339 := sampleParse
  addDays := fun t d => t + d * nsPerDay
  resolve := fun s => ((s.toList.splitOn '/').filter (fun c => c ≠ [])).map String.mk
  parse_empty := by decide

/-- An environment in which `range` enumerates a map in insertion order and the library
"lib" is stored under `/media`. -/
def sampleEnv : Env where
  rangeOrder := fun m => m
  getLibraryPath := fun libID => if libID = "lib" then some "/media" else none
  range_perm := fun m => List.Perm.refl m

/-- An environment in which `range` enumerates a map in reverse insertion order. -/
def reverseEnv : Env where
  rangeOrder := fun m => m.reverse
  getLibraryPath := fun libID => if libID = "lib" then some "/media" else none
  range_perm := fun m => List.reverse_perm m

/-- An episode of the examples: series, season, episode number and last-played date. -/
def mkEpisode (series : String) (season ep : Int) (lastPlayed : String) : EmbyItem where
  ID := series ++ "-" ++ toString season ++ "-" ++ toString ep
  Name := "episode"
  Type_ := "Episode"
  Path := "/media/" ++ series ++ "/" ++ toString season ++ "/" ++ toString ep ++ ".mkv"
  UserData := { LastPlayedDate := lastPlayed, Played := true, IsFavorite := false }
  SeriesName := series
  ParentIndexNumber := season
  IndexNumber := ep
  SeriesID := series
  SeasonID := series ++ "-" ++ toString season
  Tags := []

/-- Episode `n` of season 1 of the series "show", last played on 2024-01-01. -/
def ep (n : Int) : EmbyItem := mkEpisode "show" 1 n "2024-01-01T00:00:00Z"

/-- A second file of episode S1E2 of "show": same series and index pair as `ep 2`. -/
def epCopy : EmbyItem :=
  { ep 2 with ID := "show-1-2-b", Name := "episode (copy)", Path := "/media/show/1/2b.mkv" }

/-- Episode `n` of season 1 of the series "other", last played on 2024-01-01. -/
def epOther (n : Int) : EmbyItem := mkEpisode "other" 1 n "2024-01-01T00:00:00Z"

/-- A filesystem holding the five episodes `ep 1 .. ep 5` and an empty season folder. -/
def sampleFs : Node :=
  Node.dir [("media", Node.dir [("show", Node.dir
    [("1", Node.dir [("1.mkv", Node.file), ("2.mkv", Node.file), ("3.mkv", Node.file),
       ("4.mkv", Node.file), ("5.mkv", Node.file)]),
     ("2", Node.dir [])])])]

/-- The tree `root/A/B`: `B` is empty and `A` holds only `B`. -/
def nestedRoot : Node := Node.dir [("A", Node.dir [("B", Node.dir [])])]

/-- A filesystem holding the tree `root/A/B`. -/
def nestedFs : Node := Node.dir [("root", nestedRoot)]

/-- The configuration of the examples. -/
def sampleConfig (keep : Int) (dry : Bool) : Config where
  WatchedDaysAgo := 30
  KeepLatestEpisodes := keep
  LibraryNames := []
  TagFilters := []
  ProtectTags := ["keep"]
  ProtectFavorites := true
  DryRun := dry
  RemoveEmptyFolders := true

/-! ## Predicates used in the statements and proofs -/

/-- Every position below `i` holds an episode that is at most every later one. -/
def PrefixMin (i : Nat) (l : List EmbyItem) : Prop :=
  ∀ a b x y, a < i → a < b → l[a]? = some x → l[b]? = some y → keyLe x y

/-- Position `i` holds an episode that is at most those at positions `i+1 .. j-1`. -/
def RowMin (i j : Nat) (l : List EmbyItem) : Prop :=
  ∀ k x y, i < k → k < j → l[i]? = some x → l[k]? = some y → keyLe x y

/-- The episodes a series group contributes to the deletion set when no index leaves the
slice: none when the group has at most `keep` episodes, otherwise the first
`len - keep` of the sorted group. -/
def selectGroup (keep : Int) (episodes : List EmbyItem) : List EmbyItem :=
  if (episodes.length : Int) ≤ keep then []
  else (sortEpisodesByIndexNumber episodes).take ((episodes.length : Int) - keep).toNat

/-- The map `m` holds the groups of `items`: its keys are distinct, every entry holds the
items of its series in input order and is not empty, and every item has an entry. -/
def GroupsOf (items : List EmbyItem) (m : List (String × List EmbyItem)) : Prop :=
  (m.map Prod.fst).Nodup ∧
  (∀ kv ∈ m, kv.2 = items.filter (fun e => decide (e.SeriesID = kv.1)) ∧ kv.2 ≠ []) ∧
  (∀ e ∈ items, e.SeriesID ∈ m.map Prod.fst)

/-- Two episodes have different `(ParentIndexNumber, IndexNumber)` pairs. -/
def distinctIndex (x y : EmbyItem) : Prop :=
  ¬ (x.ParentIndexNumber = y.ParentIndexNumber ∧ x.IndexNumber = y.IndexNumber)

instance (x y : EmbyItem) : Decidable (distinctIndex x y) := by
  unfold distinctIndex; infer_instance

/-- The eligibility conditions as the specification words them: not a protected favourite,
type "Episode", non-empty path, no tag matching a protected tag case-insensitively, played,
and a non-empty last-played date that parses to an instant not strictly after the cutoff. -/
def Eligible (L : Lib) (item : EmbyItem) (config : Config) (watchedCutoff : Time) : Prop :=
  ¬ (item.UserData.IsFavorite = true ∧ config.ProtectFavorites = true) ∧
  item.Type_ = "Episode" ∧
  item.Path ≠ "" ∧
  (∀ itemTag ∈ item.Tags, ∀ protectTag ∈ config.ProtectTags,
    L.equalFold itemTag protectTag = false) ∧
  item.UserData.Played = true ∧
  item.UserData.LastPlayedDate ≠ "" ∧
  ∃ lastPlayed, L.parseRFC3339 item.UserData.LastPlayedDate = some lastPlayed ∧
    ¬ (watchedCutoff < lastPlayed)

/-! ## Theorems: retention policy -/

theorem tagProtected_eq_false (L : Lib) (item : EmbyItem) (config : Config) :
    tagProtected L item config = false ↔
      ∀ itemTag ∈ item.Tags, ∀ protectTag ∈ config.ProtectTags,
        L.equalFold itemTag protectTag = false := by
  unfold tagProtected
  rw [List.any_eq_false]
  constructor
  · intro h it hit pt hpt
    have := h pt hpt
    simp only [Bool.not_eq_true, List.any_eq_false] at this
    simpa using this it hit
  · intro h pt hpt
    simp only [Bool.not_eq_true, List.any_eq_false]
    intro it hit
    simpa using h it hit pt hpt

theorem shouldDelete_eq_true_iff (L : Lib) (item : EmbyItem) (config : Config)
    (watchedCutoff : Time) :
    shouldDelete L item config watchedCutoff = true ↔ Eligible L item config watchedCutoff := by
  have htag := tagProtected_eq_false L item config
  by_cases hfav : item.UserData.IsFavorite = true ∧ config.ProtectFavorites = true
  · have h1 : shouldDelete L item config watchedCutoff = false := by
      simp [shouldDelete, hfav.1, hfav.2]
    rw [h1]
    exact iff_of_false (by simp) (fun h => h.1 hfav)
  have hfav2 : (item.UserData.IsFavorite && config.ProtectFavorites) = false := by
    cases h1 : item.UserData.IsFavorite <;> cases h2 : config.ProtectFavorites <;> simp_all
  by_cases hty : item.Type_ = "Episode"
  swap
  · have h1 : shouldDelete L item config watchedCutoff = false := by
      simp [shouldDelete, hfav2, hty]
    rw [h1]
    exact iff_of_false (by simp) (fun h => hty h.2.1)
  by_cases hpath : item.Path = ""
  · have h1 : shouldDelete L item config watchedCutoff = false := by
      simp [shouldDelete, hfav2, hty, hpath]
    rw [h1]
    exact iff_of_false (by simp) (fun h => h.2.2.1 hpath)
  by_cases hprot : tagProtected L item config = true
  · have hlen : config.ProtectTags.length > 0 := by
      cases hc : config.ProtectTags with
      | nil => simp [tagProtected, hc] at hprot
      | cons a t => simp
    have h1 : shouldDelete L item config watchedCutoff = false := by
      simp [shouldDelete, hfav2, hty, hpath, hprot, hlen]
    rw [h1]
    refine iff_of_false (by simp) (fun h => ?_)
    have := htag.mpr h.2.2.2.1
    rw [this] at hprot
    exact Bool.noConfusion hprot
  simp only [Bool.not_eq_true] at hprot
  have hall := htag.mp hprot
  by_cases hplayed : item.UserData.Played = true
  swap
  · have h1 : shouldDelete L item config watchedCutoff = false := by
      simp [shouldDelete, hfav2, hty, hpath, hprot, hplayed]
    rw [h1]
    exact iff_of_false (by simp) (fun h => hplayed h.2.2.2.2.1)
  by_cases hdate : item.UserData.LastPlayedDate = ""
  · have h1 : shouldDelete L item config watchedCutoff = false := by
      simp [shouldDelete, hfav2, hty, hpath, hprot, hplayed, hdate]
    rw [h1]
    exact iff_of_false (by simp) (fun h => h.2.2.2.2.2.1 hdate)
  cases hparse : L.parseRFC3339 item.UserData.LastPlayedDate with
  | none =>
    have h1 : shouldDelete L item config watchedCutoff = false := by
      simp [shouldDelete, hfav2, hty, hpath, hprot, hplayed, hdate, hparse]
    rw [h1]
    refine iff_of_false (by simp) (fun h => ?_)
    obtain ⟨t, ht, _⟩ := h.2.2.2.2.2.2
    rw [hparse] at ht
    exact Option.noConfusion ht
  | some t =>
    by_cases hlt : watchedCutoff < t
    · have h1 : shouldDelete L item config watchedCutoff = false := by
        simp [shouldDelete, hfav2, hty, hpath, hprot, hplayed, hdate, hparse, hlt]
      rw [h1]
      refine iff_of_false (by simp) (fun h => ?_)
      obtain ⟨t2, ht2, hn⟩ := h.2.2.2.2.2.2
      rw [hparse] at ht2
      cases ht2
      exact hn hlt
    · have h1 : shouldDelete L item config watchedCutoff = true := by
        simp [shouldDelete, hfav2, hty, hpath, hprot, hplayed, hdate, hparse]
        exact not_lt.mp hlt
      rw [h1]
      exact iff_of_true rfl ⟨hfav, hty, hpath, hall, hplayed, hdate, t, hparse, hlt⟩

/-- C1: `shouldDelete` is total and returns `true` exactly when the item is not a protected
favourite, has type "Episode", has a non-empty path, has no tag that `EqualFold`s an entry of
`ProtectTags`, is played, and its non-empty `LastPlayedDate` parses as RFC3339 to an instant
that is not strictly after `watchedCutoff`; in every other case it returns `false`. -/
theorem shouldDelete_iff (L : Lib) (item : EmbyItem) (config : Config) (watchedCutoff : Time) :
    (shouldDelete L item config watchedCutoff = true ↔
      (¬ (item.UserData.IsFavorite = true ∧ config.ProtectFavorites = true) ∧
        item.Type_ = "Episode" ∧
        item.Path ≠ "" ∧
        (∀ itemTag ∈ item.Tags, ∀ protectTag ∈ config.ProtectTags,
          L.equalFold itemTag protectTag = false) ∧
        item.UserData.Played = true ∧
        item.UserData.LastPlayedDate ≠ "" ∧
        ∃ lastPlayed, L.parseRFC3339 item.UserData.LastPlayedDate = some lastPlayed ∧
          ¬ (watchedCutoff < lastPlayed))) ∧
    (shouldDelete L item config watchedCutoff = false ↔
      ¬ Eligible L item config watchedCutoff) := by
  refine ⟨shouldDelete_eq_true_iff L item config watchedCutoff, ?_⟩
  rw [← shouldDelete_eq_true_iff]
  cases shouldDelete L item config watchedCutoff <;> simp

/-- C5: an unprotected, played episode with a non-empty path whose `LastPlayedDate` parses to
the instant `t` is eligible when `watchedCutoff = t` (the boundary is inclusive), and for any
cutoff it is ineligible exactly when `t` is strictly after the cutoff. -/
theorem shouldDelete_cutoff_inclusive (L : Lib) (item : EmbyItem) (config : Config) (t : Time)
    (hty : item.Type_ = "Episode") (hpath : item.Path ≠ "")
    (hfav : ¬ (item.UserData.IsFavorite = true ∧ config.ProtectFavorites = true))
    (htags : ∀ itemTag ∈ item.Tags, ∀ protectTag ∈ config.ProtectTags,
      L.equalFold itemTag protectTag = false)
    (hplayed : item.UserData.Played = true)
    (hparse : L.parseRFC3339 item.UserData.LastPlayedDate = some t) :
    shouldDelete L item config t = true ∧
    ∀ watchedCutoff, shouldDelete L item config watchedCutoff = false ↔ watchedCutoff < t := by
  have hdate : item.UserData.LastPlayedDate ≠ "" := by
    intro h
    rw [h, L.parse_empty] at hparse
    exact Option.noConfusion hparse
  refine ⟨?_, fun c => ?_⟩
  · rw [shouldDelete_eq_true_iff]
    exact ⟨hfav, hty, hpath, htags, hplayed, hdate, t, hparse, lt_irrefl t⟩
  · have h := shouldDelete_eq_true_iff L item config c
    constructor
    · intro hf
      by_contra hlt
      have : shouldDelete L item config c = true :=
        h.mpr ⟨hfav, hty, hpath, htags, hplayed, hdate, t, hparse, hlt⟩
      rw [hf] at this
      exact Bool.noConfusion this
    · intro hlt
      cases hs : shouldDelete L item config c with
      | false => rfl
      | true =>
        obtain ⟨t2, ht2, hn⟩ := (h.mp hs).2.2.2.2.2.2
        rw [hparse] at ht2
        cases ht2
        exact absurd hlt hn

/-- C5 at a concrete episode last played exactly at the cutoff 2024-01-31T00:00:00Z. -/
theorem shouldDelete_cutoff_inclusive_witness :
    shouldDelete sampleLib (mkEpisode "show" 1 1 "2024-01-31T00:00:00Z") (sampleConfig 1 false)
        (1706659200 * 1000000000) = true ∧
    ∀ watchedCutoff,
      shouldDelete sampleLib (mkEpisode "show" 1 1 "2024-01-31T00:00:00Z") (sampleConfig 1 false)
        watchedCutoff = false ↔ watchedCutoff < 1706659200 * 1000000000 :=
  shouldDelete_cutoff_inclusive sampleLib (mkEpisode "show" 1 1 "2024-01-31T00:00:00Z")
    (sampleConfig 1 false) (1706659200 * 1000000000) rfl (by decide) (by decide)
    (by intro a ha; simp [mkEpisode] at ha) rfl (by decide)

/-! ## Theorems: sorting -/

theorem episodeGreater_eq_false_iff (a b : EmbyItem) :
    episodeGreater a b = false ↔ keyLe a b := by
  unfold episodeGreater keyLe
  simp only [Bool.or_eq_false_iff, Bool.and_eq_false_iff, decide_eq_false_iff_not, gt_iff_lt,
    not_lt]
  constructor
  · rintro ⟨h1, h2 | h2⟩
    · rcases lt_or_eq_of_le h1 with h | h
      · exact Or.inl h
      · exact absurd h h2
    · rcases lt_or_eq_of_le h1 with h | h
      · exact Or.inl h
      · exact Or.inr ⟨h, h2⟩
  · rintro (h | ⟨h1, h2⟩)
    · exact ⟨le_of_lt h, Or.inl (ne_of_lt h)⟩
    · exact ⟨le_of_eq h1, Or.inr h2⟩

theorem keyLe_of_episodeGreater {a b : EmbyItem} (h : episodeGreater a b = true) :
    keyLe b a := by
  unfold episodeGreater at h
  unfold keyLe
  simp only [Bool.or_eq_true, Bool.and_eq_true, decide_eq_true_eq, gt_iff_lt] at h
  rcases h with h | ⟨h1, h2⟩
  · exact Or.inl h
  · exact Or.inr ⟨h1.symm, le_of_lt h2⟩

theorem keyLe_trans {a b c : EmbyItem} (h1 : keyLe a b) (h2 : keyLe b c) : keyLe a c := by
  unfold keyLe at *
  omega

theorem keyLe_refl (a : EmbyItem) : keyLe a a := Or.inr ⟨rfl, le_refl _⟩

theorem cons_set_perm {α : Type} (x b : α) :
    ∀ (t : List α) (j : Nat), t[j]? = some b → (b :: t.set j x).Perm (x :: t)
  | [], j, h => by simp at h
  | y :: t, 0, h => by
    simp only [List.getElem?_cons_zero, Option.some.injEq] at h
    subst h
    exact List.Perm.swap _ _ _
  | y :: t, j + 1, h => by
    simp only [List.getElem?_cons_succ] at h
    have ih := cons_set_perm x b t j h
    simp only [List.set_cons_succ]
    exact ((List.Perm.swap y b _).trans (ih.cons y)).trans (List.Perm.swap x y _)

theorem set_set_perm_of_getElem? {α : Type} :
    ∀ (l : List α) (i j : Nat) (a b : α), i < j → l[i]? = some a → l[j]? = some b →
      ((l.set i b).set j a).Perm l
  | [], i, j, a, b, _, h, _ => by simp at h
  | x :: t, 0, 0, a, b, hij, _, _ => absurd hij (lt_irrefl 0)
  | x :: t, 0, j + 1, a, b, _, hi, hj => by
    simp only [List.getElem?_cons_zero, Option.some.injEq] at hi
    simp only [List.getElem?_cons_succ] at hj
    subst hi
    simp only [List.set_cons_zero, List.set_cons_succ]
    exact cons_set_perm x b t j hj
  | x :: t, i + 1, 0, a, b, hij, _, _ => absurd hij (Nat.not_lt_zero _)
  | x :: t, i + 1, j + 1, a, b, hij, hi, hj => by
    simp only [List.getElem?_cons_succ] at hi hj
    simp only [List.set_cons_succ]
    exact (set_set_perm_of_getElem? t i j a b (Nat.lt_of_succ_lt_succ hij) hi hj).cons x

theorem sortStep_length (i j : Nat) (l : List EmbyItem) :
    (sortStep i l j).length = l.length := by
  unfold sortStep
  split
  · split <;> simp
  · rfl

theorem sortStep_perm (i j : Nat) (hij : i < j) (l : List EmbyItem) :
    (sortStep i l j).Perm l := by
  unfold sortStep
  split
  · rename_i a b ha hb
    split
    · exact set_set_perm_of_getElem? l i j a b hij ha hb
    · exact List.Perm.refl _
  · exact List.Perm.refl _

theorem sortStep_getElem? (i j : Nat) (hij : i < j) (l : List EmbyItem) (a b : EmbyItem)
    (ha : l[i]? = some a) (hb : l[j]? = some b) (k : Nat) :
    (sortStep i l j)[k]? =
      if episodeGreater a b = true then
        (if k = i then some b else if k = j then some a else l[k]?)
      else l[k]? := by
  have hi : i < l.length := (List.getElem?_eq_some_iff.mp ha).1
  have hj : j < l.length := (List.getElem?_eq_some_iff.mp hb).1
  unfold sortStep
  rw [ha, hb]
  simp only
  by_cases hg : episodeGreater a b = true
  · simp only [hg, if_true]
    rw [List.getElem?_set, List.getElem?_set]
    by_cases hkj : k = j
    · subst hkj
      have : ¬ k = i := by omega
      simp [this, hj]
    · by_cases hki : k = i
      · subst hki
        have : ¬ j = k := by omega
        simp [this, hi]
      · have h1 : ¬ j = k := fun h => hkj h.symm
        have h2 : ¬ i = k := fun h => hki h.symm
        simp [h1, h2, hkj, hki]
  · simp [hg]

theorem sortStep_inv (i j : Nat) (hij : i < j) (l : List EmbyItem) (hj : j < l.length)
    (hP : PrefixMin i l) (hR : RowMin i j l) :
    PrefixMin i (sortStep i l j) ∧ RowMin i (j + 1) (sortStep i l j) := by
  have hi : i < l.length := lt_trans hij hj
  have ha : l[i]? = some l[i] := List.getElem?_eq_getElem hi
  have hb : l[j]? = some l[j] := List.getElem?_eq_getElem hj
  have hget := sortStep_getElem? i j hij l l[i] l[j] ha hb
  by_cases hg : episodeGreater l[i] l[j] = true
  · simp only [hg, if_true] at hget
    have hba : keyLe l[j] l[i] := keyLe_of_episodeGreater hg
    constructor
    · intro a b x y hai hab hx hy
      rw [hget] at hx hy
      have h1 : ¬ a = i := by omega
      have h2 : ¬ a = j := by omega
      simp only [h1, h2, if_false] at hx
      by_cases hbi : b = i
      · simp only [hbi, if_true, Option.some.injEq] at hy
        subst hy
        exact hP a j x _ hai (by omega) hx hb
      · by_cases hbj : b = j
        · subst hbj
          have hne : ¬ b = i := hbi
          simp only [hne, if_true, if_false, Option.some.injEq] at hy
          subst hy
          exact hP a i x _ hai (by omega) hx ha
        · simp only [hbi, hbj, if_false] at hy
          exact hP a b x y hai hab hx hy
    · intro k x y hik hkj hx hy
      rw [hget] at hx hy
      simp only [if_true, Option.some.injEq] at hx
      subst hx
      have h1 : ¬ k = i := by omega
      by_cases hkj2 : k = j
      · subst hkj2
        simp only [h1, if_true, if_false, Option.some.injEq] at hy
        subst hy
        exact hba
      · simp only [h1, hkj2, if_false] at hy
        exact keyLe_trans hba (hR k _ y hik (by omega) ha hy)
  · have hst : sortStep i l j = l := by
      apply List.ext_getElem?
      intro k
      rw [hget]
      simp [hg]
    rw [hst]
    refine ⟨hP, ?_⟩
    intro k x y hik hkj hx hy
    by_cases hkj2 : k = j
    · subst hkj2
      rw [ha] at hx
      rw [hb] at hy
      cases hx
      cases hy
      exact (episodeGreater_eq_false_iff _ _).mp (by simpa using hg)
    · exact hR k x y hik (by omega) hx hy

theorem sortInner_loop (i : Nat) :
    ∀ (n j : Nat) (l : List EmbyItem), i < j → j + n = l.length → PrefixMin i l →
      RowMin i j l →
      ((List.range' j n).foldl (sortStep i) l).length = l.length ∧
      ((List.range' j n).foldl (sortStep i) l).Perm l ∧
      PrefixMin i ((List.range' j n).foldl (sortStep i) l) ∧
      RowMin i l.length ((List.range' j n).foldl (sortStep i) l)
  | 0, j, l, _, hn, hP, hR => by
    simp only [List.range'_zero, List.foldl_nil]
    have : j = l.length := by omega
    subst this
    exact ⟨trivial, List.Perm.refl _, hP, hR⟩
  | n + 1, j, l, hij, hn, hP, hR => by
    simp only [List.range'_succ, List.foldl_cons]
    have hj : j < l.length := by omega
    obtain ⟨hP2, hR2⟩ := sortStep_inv i j hij l hj hP hR
    have hlen := sortStep_length i j l
    obtain ⟨h1, h2, h3, h4⟩ := sortInner_loop i n (j + 1) (sortStep i l j) (by omega)
      (by rw [hlen]; omega) hP2 hR2
    rw [hlen] at h1 h4
    exact ⟨h1, h2.trans (sortStep_perm i j hij l), h3, h4⟩

theorem sortInner_spec (i : Nat) (l : List EmbyItem) (hi : i < l.length) (hP : PrefixMin i l) :
    (sortInner i l).length = l.length ∧ (sortInner i l).Perm l ∧
      PrefixMin (i + 1) (sortInner i l) := by
  have hR : RowMin i (i + 1) l := by
    intro k x y h1 h2
    omega
  obtain ⟨h1, h2, h3, h4⟩ := sortInner_loop i (l.length - (i + 1)) (i + 1) l (by omega)
    (by omega) hP hR
  refine ⟨h1, h2, ?_⟩
  intro a b x y hai hab hx hy
  by_cases h : a < i
  · exact h3 a b x y h hab hx hy
  · have hai2 : a = i := by omega
    subst hai2
    have hb : b < (sortInner a l).length := (List.getElem?_eq_some_iff.mp hy).1
    have h1b : (sortInner a l).length = l.length := h1
    rw [h1b] at hb
    exact h4 b x y hab hb hx hy

theorem sortOuter_loop :
    ∀ (n i : Nat) (l : List EmbyItem), i + n = l.length - 1 → PrefixMin i l →
      ((List.range' i n).foldl (fun acc k => sortInner k acc) l).length = l.length ∧
      ((List.range' i n).foldl (fun acc k => sortInner k acc) l).Perm l ∧
      PrefixMin (l.length - 1) ((List.range' i n).foldl (fun acc k => sortInner k acc) l)
  | 0, i, l, hn, hP => by
    simp only [List.range'_zero, List.foldl_nil]
    have : i = l.length - 1 := by omega
    subst this
    exact ⟨trivial, List.Perm.refl _, hP⟩
  | n + 1, i, l, hn, hP => by
    simp only [List.range'_succ, List.foldl_cons]
    obtain ⟨h1, h2, h3⟩ := sortInner_spec i l (by omega) hP
    obtain ⟨g1, g2, g3⟩ := sortOuter_loop n (i + 1) (sortInner i l) (by rw [h1]; omega) h3
    rw [h1] at g1 g3
    exact ⟨g1, g2.trans h2, g3⟩

theorem sortEpisodes_length (l : List EmbyItem) :
    (sortEpisodesByIndexNumber l).length = l.length := by
  unfold sortEpisodesByIndexNumber
  rw [List.range_eq_range']
  exact (sortOuter_loop (l.length - 1) 0 l (by omega) (by intro a b x y h; omega)).1

theorem sortEpisodes_perm (l : List EmbyItem) : (sortEpisodesByIndexNumber l).Perm l := by
  unfold sortEpisodesByIndexNumber
  rw [List.range_eq_range']
  exact (sortOuter_loop (l.length - 1) 0 l (by omega) (by intro a b x y h; omega)).2.1

theorem sortEpisodes_sorted (l : List EmbyItem) :
    (sortEpisodesByIndexNumber l).Pairwise keyLe := by
  have hlen := sortEpisodes_length l
  have hP : PrefixMin (l.length - 1) (sortEpisodesByIndexNumber l) := by
    unfold sortEpisodesByIndexNumber
    rw [List.range_eq_range']
    exact (sortOuter_loop (l.length - 1) 0 l (by omega) (by intro a b x y h; omega)).2.2
  rw [List.pairwise_iff_getElem]
  intro a b ha hb hab
  exact hP a b _ _ (by omega) hab (List.getElem?_eq_getElem ha) (List.getElem?_eq_getElem hb)

theorem sortStep_of_sorted (i j : Nat) (hij : i < j) (l : List EmbyItem)
    (hs : l.Pairwise keyLe) : sortStep i l j = l := by
  unfold sortStep
  split
  · rename_i a b ha hb
    obtain ⟨hi, hai⟩ := List.getElem?_eq_some_iff.mp ha
    obtain ⟨hj, hbj⟩ := List.getElem?_eq_some_iff.mp hb
    have hle : keyLe a b := by
      rw [← hai, ← hbj]
      exact (List.pairwise_iff_getElem.mp hs) i j hi hj hij
    rw [(episodeGreater_eq_false_iff a b).mpr hle]
    simp
  · rfl

theorem sortInner_of_sorted (i : Nat) (l : List EmbyItem) (hs : l.Pairwise keyLe) :
    sortInner i l = l := by
  unfold sortInner
  generalize l.length - (i + 1) = n
  have : ∀ (n j : Nat), i < j → (List.range' j n).foldl (sortStep i) l = l := by
    intro n
    induction n with
    | zero => intro j _; rfl
    | succ n ih =>
      intro j hj
      simp only [List.range'_succ, List.foldl_cons]
      rw [sortStep_of_sorted i j hj l hs]
      exact ih (j + 1) (by omega)
  exact this n (i + 1) (by omega)

theorem sortEpisodes_of_sorted (l : List EmbyItem) (hs : l.Pairwise keyLe) :
    sortEpisodesByIndexNumber l = l := by
  unfold sortEpisodesByIndexNumber
  generalize List.range (l.length - 1) = r
  induction r with
  | nil => rfl
  | cons k r ih =>
    simp only [List.foldl_cons]
    rw [sortInner_of_sorted k l hs]
    exact ih

/-! ## Theorems: selection -/

theorem wrapInt64_of_range (x : Int) (h1 : -(2 ^ 63) ≤ x) (h2 : x < 2 ^ 63) :
    wrapInt64 x = x := by
  unfold wrapInt64
  omega

theorem selected_append (r : Run) (evs : List Event) :
    Run.selected { r with out := r.out ++ evs } = r.selected ++ evs.filterMap Event.item := by
  simp [Run.selected, List.filterMap_append]

theorem deleteOne_selected (L : Lib) (config : Config) (e : EmbyItem) (r : Run) :
    (deleteOne L config e r).selected = r.selected ++ [e] := by
  unfold deleteOne
  split
  · rw [selected_append]; rfl
  · split
    · simp [Run.selected, List.filterMap_append, Event.item]
    · rw [selected_append]; rfl

theorem deleteOne_crashed (L : Lib) (config : Config) (e : EmbyItem) (r : Run) :
    (deleteOne L config e r).crashed = r.crashed := by
  unfold deleteOne
  split
  · rfl
  · split <;> rfl

theorem deleteOne_dryRun_fs (L : Lib) (config : Config) (hdry : config.DryRun = true)
    (e : EmbyItem) (r : Run) : (deleteOne L config e r).fs = r.fs := by
  simp [deleteOne, hdry]

theorem deleteLoop_mem (L : Lib) (config : Config) (episodes : List EmbyItem) :
    ∀ (is : List Nat) (r : Run) (e : EmbyItem),
      e ∈ (deleteLoop L config episodes is r).selected → e ∈ r.selected ∨ e ∈ episodes
  | [], r, e, h => Or.inl h
  | i :: rest, r, e, h => by
    cases hget : episodes[i]? with
    | none =>
      simp only [deleteLoop, hget] at h
      exact Or.inl h
    | some x =>
      simp only [deleteLoop, hget] at h
      have hx : x ∈ episodes := by
        obtain ⟨hi, hxi⟩ := List.getElem?_eq_some_iff.mp hget
        exact hxi ▸ List.getElem_mem hi
      rcases deleteLoop_mem L config episodes rest _ e h with h1 | h1
      · rw [deleteOne_selected, List.mem_append, List.mem_singleton] at h1
        rcases h1 with h1 | h1
        · exact Or.inl h1
        · exact Or.inr (h1 ▸ hx)
      · exact Or.inr h1

theorem deleteLoop_spec (L : Lib) (config : Config) (episodes : List EmbyItem) :
    ∀ (n s : Nat) (r : Run), s + n ≤ episodes.length →
      (deleteLoop L config episodes (List.range' s n) r).selected =
          r.selected ++ (episodes.drop s).take n ∧
        (deleteLoop L config episodes (List.range' s n) r).crashed = r.crashed
  | 0, s, r, _ => by simp [deleteLoop]
  | n + 1, s, r, h => by
    have hs : s < episodes.length := by omega
    have hget : episodes[s]? = some episodes[s] := List.getElem?_eq_getElem hs
    have hdrop : episodes.drop s = episodes[s] :: episodes.drop (s + 1) :=
      List.drop_eq_getElem_cons hs
    obtain ⟨h1, h2⟩ := deleteLoop_spec L config episodes n (s + 1)
      (deleteOne L config episodes[s] r) (by omega)
    simp only [List.range'_succ, deleteLoop, hget]
    rw [h1, h2, deleteOne_selected, deleteOne_crashed, hdrop]
    simp only [List.take_succ_cons, List.append_assoc, List.singleton_append, and_self]

theorem deleteLoop_dryRun_fs (L : Lib) (config : Config) (hdry : config.DryRun = true)
    (episodes : List EmbyItem) :
    ∀ (is : List Nat) (r : Run), (deleteLoop L config episodes is r).fs = r.fs
  | [], r => rfl
  | i :: rest, r => by
    cases hget : episodes[i]? with
    | none => simp [deleteLoop, hget]
    | some x =>
      simp only [deleteLoop, hget]
      rw [deleteLoop_dryRun_fs L config hdry episodes rest _,
        deleteOne_dryRun_fs L config hdry]

theorem deleteLoop_congr (L : Lib) (c1 c2 : Config) (episodes : List EmbyItem) :
    ∀ (is : List Nat) (r1 r2 : Run), r1.selected = r2.selected → r1.crashed = r2.crashed →
      (deleteLoop L c1 episodes is r1).selected = (deleteLoop L c2 episodes is r2).selected ∧
      (deleteLoop L c1 episodes is r1).crashed = (deleteLoop L c2 episodes is r2).crashed
  | [], r1, r2, h1, h2 => ⟨h1, h2⟩
  | i :: rest, r1, r2, h1, h2 => by
    cases hget : episodes[i]? with
    | none =>
      simp only [deleteLoop, hget]
      exact ⟨h1, trivial⟩
    | some x =>
      simp only [deleteLoop, hget]
      exact deleteLoop_congr L c1 c2 episodes rest _ _
        (by rw [deleteOne_selected, deleteOne_selected, h1])
        (by rw [deleteOne_crashed, deleteOne_crashed, h2])

theorem processGroup_of_le (L : Lib) (config : Config) (episodes : List EmbyItem) (r : Run)
    (h : (episodes.length : Int) ≤ config.KeepLatestEpisodes) :
    processGroup L config episodes r = r := by
  simp [processGroup, h]

theorem deleteCount_eq (keep : Int) (episodes : List EmbyItem) (hkeep : 0 ≤ keep)
    (hsize : (episodes.length : Int) < 2 ^ 63) (hlen : keep < (episodes.length : Int)) :
    wrapInt64 (((sortEpisodesByIndexNumber episodes).length : Int) - keep) =
      (episodes.length : Int) - keep := by
  rw [sortEpisodes_length]
  apply wrapInt64_of_range <;> omega

theorem processGroup_spec (L : Lib) (config : Config) (episodes : List EmbyItem) (r : Run)
    (hkeep : 0 ≤ config.KeepLatestEpisodes) (hsize : (episodes.length : Int) < 2 ^ 63) :
    (processGroup L config episodes r).selected =
        r.selected ++ selectGroup config.KeepLatestEpisodes episodes ∧
      (processGroup L config episodes r).crashed = r.crashed := by
  unfold processGroup selectGroup
  by_cases h : (episodes.length : Int) ≤ config.KeepLatestEpisodes
  · simp [h]
  · simp only [h, if_false]
    rw [deleteCount_eq _ _ hkeep hsize (not_le.mp h), List.range_eq_range']
    have hle : 0 + ((episodes.length : Int) - config.KeepLatestEpisodes).toNat ≤
        (sortEpisodesByIndexNumber episodes).length := by
      rw [sortEpisodes_length]; omega
    obtain ⟨h1, h2⟩ := deleteLoop_spec L config (sortEpisodesByIndexNumber episodes) _ 0 r hle
    exact ⟨by simpa using h1, h2⟩

theorem processGroup_mem (L : Lib) (config : Config) (episodes : List EmbyItem) (r : Run)
    (e : EmbyItem) (h : e ∈ (processGroup L config episodes r).selected) :
    e ∈ r.selected ∨ e ∈ episodes := by
  unfold processGroup at h
  split at h
  · exact Or.inl h
  · rcases deleteLoop_mem L config _ _ r e h with h1 | h1
    · exact Or.inl h1
    · exact Or.inr ((sortEpisodes_perm episodes).mem_iff.mp h1)

theorem processGroup_congr (L : Lib) (c1 c2 : Config)
    (hk : c1.KeepLatestEpisodes = c2.KeepLatestEpisodes) (episodes : List EmbyItem)
    (r1 r2 : Run) (h1 : r1.selected = r2.selected) (h2 : r1.crashed = r2.crashed) :
    (processGroup L c1 episodes r1).selected = (processGroup L c2 episodes r2).selected ∧
      (processGroup L c1 episodes r1).crashed = (processGroup L c2 episodes r2).crashed := by
  unfold processGroup
  rw [hk]
  split
  · exact ⟨h1, h2⟩
  · exact deleteLoop_congr L c1 c2 _ _ r1 r2 h1 h2

theorem processGroup_dryRun_fs (L : Lib) (config : Config) (hdry : config.DryRun = true)
    (episodes : List EmbyItem) (r : Run) : (processGroup L config episodes r).fs = r.fs := by
  unfold processGroup
  split
  · rfl
  · exact deleteLoop_dryRun_fs L config hdry _ _ r

theorem selectGroup_mem (keep : Int) (episodes : List EmbyItem) (e : EmbyItem)
    (h : e ∈ selectGroup keep episodes) : e ∈ episodes := by
  unfold selectGroup at h
  split at h
  · simp at h
  · exact (sortEpisodes_perm episodes).mem_iff.mp (List.mem_of_mem_take h)

theorem selectGroup_nil (keep : Int) (hkeep : 0 ≤ keep) : selectGroup keep [] = [] := by
  simp [selectGroup, hkeep]

/-- What `selectGroup` keeps and deletes of a group larger than `keep`. -/
theorem selectGroup_split (keep : Int) (episodes : List EmbyItem) (hkeep : 0 ≤ keep)
    (hlen : keep < (episodes.length : Int)) :
    ((selectGroup keep episodes).length : Int) = (episodes.length : Int) - keep ∧
    ∃ kept : List EmbyItem, (kept.length : Int) = keep ∧
      (selectGroup keep episodes ++ kept).Perm episodes ∧
      ∀ d ∈ selectGroup keep episodes, ∀ k ∈ kept, keyLe d k := by
  have hnot : ¬ (episodes.length : Int) ≤ keep := not_le.mpr hlen
  have hsl := sortEpisodes_length episodes
  unfold selectGroup
  simp only [hnot, if_false]
  refine ⟨?_, (sortEpisodesByIndexNumber episodes).drop
    ((episodes.length : Int) - keep).toNat, ?_, ?_, ?_⟩
  · rw [List.length_take, hsl]; omega
  · rw [List.length_drop, hsl]; omega
  · rw [List.take_append_drop]
    exact sortEpisodes_perm episodes
  · have hs := sortEpisodes_sorted episodes
    rw [← List.take_append_drop ((episodes.length : Int) - keep).toNat
      (sortEpisodesByIndexNumber episodes)] at hs
    exact (List.pairwise_append.mp hs).2.2

theorem processGroups_mem (L : Lib) (config : Config) :
    ∀ (groups : List (List EmbyItem)) (r : Run) (e : EmbyItem),
      e ∈ (processGroups L config groups r).selected →
        e ∈ r.selected ∨ ∃ g ∈ groups, e ∈ g
  | [], r, e, h => Or.inl h
  | g :: rest, r, e, h => by
    unfold processGroups at h
    simp only at h
    split at h
    · rcases processGroup_mem L config g r e h with h1 | h1
      · exact Or.inl h1
      · exact Or.inr ⟨g, List.mem_cons_self _ _, h1⟩
    · rcases processGroups_mem L config rest _ e h with h1 | ⟨g', hg', h1⟩
      · rcases processGroup_mem L config g r e h1 with h2 | h2
        · exact Or.inl h2
        · exact Or.inr ⟨g, List.mem_cons_self _ _, h2⟩
      · exact Or.inr ⟨g', List.mem_cons_of_mem _ hg', h1⟩

theorem processGroups_spec (L : Lib) (config : Config)
    (hkeep : 0 ≤ config.KeepLatestEpisodes) :
    ∀ (groups : List (List EmbyItem)) (r : Run), r.crashed = false →
      (∀ g ∈ groups, (g.length : Int) < 2 ^ 63) →
      (processGroups L config groups r).selected =
          r.selected ++ (groups.map (selectGroup config.KeepLatestEpisodes)).flatten ∧
        (processGroups L config groups r).crashed = false
  | [], r, hr, _ => by simp [processGroups, hr]
  | g :: rest, r, hr, hsize => by
    obtain ⟨h1, h2⟩ := processGroup_spec L config g r hkeep (hsize g (List.mem_cons_self _ _))
    rw [hr] at h2
    obtain ⟨h3, h4⟩ := processGroups_spec L config hkeep rest (processGroup L config g r) h2
      (fun g' hg' => hsize g' (List.mem_cons_of_mem _ hg'))
    unfold processGroups
    simp only [h2, Bool.false_eq_true, if_false]
    rw [h3, h4, h1]
    simp

theorem processGroups_congr (L : Lib) (c1 c2 : Config)
    (hk : c1.KeepLatestEpisodes = c2.KeepLatestEpisodes) :
    ∀ (groups : List (List EmbyItem)) (r1 r2 : Run), r1.selected = r2.selected →
      r1.crashed = r2.crashed →
      (processGroups L c1 groups r1).selected = (processGroups L c2 groups r2).selected ∧
        (processGroups L c1 groups r1).crashed = (processGroups L c2 groups r2).crashed
  | [], r1, r2, h1, h2 => ⟨h1, h2⟩
  | g :: rest, r1, r2, h1, h2 => by
    obtain ⟨g1, g2⟩ := processGroup_congr L c1 c2 hk g r1 r2 h1 h2
    unfold processGroups
    simp only
    rw [g2]
    split
    · exact ⟨g1, g2⟩
    · exact processGroups_congr L c1 c2 hk rest _ _ g1 g2

theorem processGroups_dryRun_fs (L : Lib) (config : Config) (hdry : config.DryRun = true) :
    ∀ (groups : List (List EmbyItem)) (r : Run), (processGroups L config groups r).fs = r.fs
  | [], r => rfl
  | g :: rest, r => by
    unfold processGroups
    simp only
    split
    · exact processGroup_dryRun_fs L config hdry g r
    · rw [processGroups_dryRun_fs L config hdry rest, processGroup_dryRun_fs L config hdry g r]

/-! ## Theorems: grouping by series -/

theorem insertEpisode_keys (e : EmbyItem) :
    ∀ m : List (String × List EmbyItem),
      (insertEpisode m e).map Prod.fst =
        if e.SeriesID ∈ m.map Prod.fst then m.map Prod.fst
        else m.map Prod.fst ++ [e.SeriesID]
  | [] => by simp [insertEpisode]
  | (k, v) :: rest => by
    unfold insertEpisode
    by_cases hk : k = e.SeriesID
    · simp [hk]
    · have ih := insertEpisode_keys e rest
      have hk2 : ¬ e.SeriesID = k := fun h => hk h.symm
      simp only [hk, if_false, List.map_cons, List.mem_cons, hk2, false_or, ih]
      split <;> simp

theorem insertEpisode_entries (e : EmbyItem) :
    ∀ m : List (String × List EmbyItem), (m.map Prod.fst).Nodup →
      ∀ kv ∈ insertEpisode m e,
        (kv ∈ m ∧ kv.1 ≠ e.SeriesID) ∨
        (kv.1 = e.SeriesID ∧ ∃ v0, kv.2 = v0 ++ [e] ∧
          ((e.SeriesID, v0) ∈ m ∨ (v0 = [] ∧ e.SeriesID ∉ m.map Prod.fst)))
  | [], _, kv, h => by
    simp only [insertEpisode, List.mem_singleton] at h
    subst h
    exact Or.inr ⟨rfl, [], rfl, Or.inr ⟨rfl, by simp⟩⟩
  | (k, v) :: rest, hnd, kv, h => by
    have hnd2 : k ∉ rest.map Prod.fst ∧ (rest.map Prod.fst).Nodup := by
      simpa using hnd
    unfold insertEpisode at h
    by_cases hk : k = e.SeriesID
    · simp only [hk, if_true, List.mem_cons] at h
      rcases h with h | h
      · subst h
        exact Or.inr ⟨rfl, v, rfl, Or.inl (by simp [hk])⟩
      · refine Or.inl ⟨List.mem_cons_of_mem _ h, ?_⟩
        intro hkv
        apply hnd2.1
        rw [hk, ← hkv]
        exact List.mem_map_of_mem Prod.fst h
    · simp only [hk, if_false, List.mem_cons] at h
      rcases h with h | h
      · subst h
        exact Or.inl ⟨List.mem_cons_self _ _, hk⟩
      · rcases insertEpisode_entries e rest hnd2.2 kv h with ⟨h1, h2⟩ | ⟨h1, v0, h2, h3⟩
        · exact Or.inl ⟨List.mem_cons_of_mem _ h1, h2⟩
        · refine Or.inr ⟨h1, v0, h2, ?_⟩
          rcases h3 with h3 | ⟨h3, h4⟩
          · exact Or.inl (List.mem_cons_of_mem _ h3)
          · refine Or.inr ⟨h3, ?_⟩
            simp only [List.map_cons, List.mem_cons, not_or]
            exact ⟨fun h => hk h.symm, h4⟩

theorem insertEpisode_groupsOf (items : List EmbyItem) (e : EmbyItem)
    (m : List (String × List EmbyItem)) (h : GroupsOf items m) :
    GroupsOf (items ++ [e]) (insertEpisode m e) := by
  obtain ⟨hnd, hent, hcov⟩ := h
  have hkeys := insertEpisode_keys e m
  refine ⟨?_, ?_, ?_⟩
  · rw [hkeys]
    split
    · exact hnd
    · rename_i hnot
      rw [List.nodup_append]
      refine ⟨hnd, List.nodup_singleton _, ?_⟩
      intro a ha hb
      rw [List.mem_singleton] at hb
      exact hnot (hb ▸ ha)
  · intro kv hkv
    rcases insertEpisode_entries e m hnd kv hkv with ⟨h1, h2⟩ | ⟨h1, v0, h2, h3⟩
    · obtain ⟨g1, g2⟩ := hent kv h1
      refine ⟨?_, g2⟩
      rw [List.filter_append, ← g1]
      have : ¬ e.SeriesID = kv.1 := fun h => h2 h.symm
      simp [this]
    · refine ⟨?_, by rw [h2]; simp⟩
      rw [List.filter_append, h2, h1]
      have hv0 : v0 = items.filter (fun x => decide (x.SeriesID = e.SeriesID)) := by
        rcases h3 with h3 | ⟨h3, h4⟩
        · exact (hent _ h3).1
        · rw [h3]
          symm
          rw [List.filter_eq_nil_iff]
          intro x hx hxs
          simp only [decide_eq_true_eq] at hxs
          exact h4 (hxs ▸ hcov x hx)
      rw [← hv0]
      simp
  · intro x hx
    rw [hkeys]
    rw [List.mem_append, List.mem_singleton] at hx
    split
    · rename_i hin
      rcases hx with hx | hx
      · exact hcov x hx
      · rw [hx]; exact hin
    · rw [List.mem_append, List.mem_singleton]
      rcases hx with hx | hx
      · exact Or.inl (hcov x hx)
      · exact Or.inr (by rw [hx])

theorem seriesEpisodes_groupsOf (items : List EmbyItem) :
    GroupsOf items (seriesEpisodes items) := by
  induction items using List.reverseRecOn with
  | nil => exact ⟨by simp [seriesEpisodes], by simp [seriesEpisodes], by simp⟩
  | append_singleton l e ih =>
    have : seriesEpisodes (l ++ [e]) = insertEpisode (seriesEpisodes l) e := by
      simp [seriesEpisodes, List.foldl_append]
    rw [this]
    exact insertEpisode_groupsOf l e _ ih

theorem groupsOf_perm (items : List EmbyItem) (m order : List (String × List EmbyItem))
    (hp : order.Perm m) (h : GroupsOf items m) : GroupsOf items order := by
  obtain ⟨hnd, hent, hcov⟩ := h
  refine ⟨(hp.map Prod.fst).nodup_iff.mpr hnd, fun kv hkv => hent kv (hp.mem_iff.mp hkv), ?_⟩
  intro e he
  exact (hp.map Prod.fst).mem_iff.mpr (hcov e he)

/-- The selection restricted to one series is the selection of that series' group. -/
theorem flatten_selectGroup_filter (keep : Int) (items : List EmbyItem) (k : String) :
    ∀ order : List (String × List EmbyItem), (order.map Prod.fst).Nodup →
      (∀ kv ∈ order, kv.2 = items.filter (fun e => decide (e.SeriesID = kv.1))) →
      (((order.map Prod.snd).map (selectGroup keep)).flatten).filter
          (fun e => decide (e.SeriesID = k)) =
        if k ∈ order.map Prod.fst then
          selectGroup keep (items.filter (fun e => decide (e.SeriesID = k)))
        else []
  | [], _, _ => by simp
  | (k', v) :: rest, hnd, hent => by
    have hnd2 : k' ∉ rest.map Prod.fst ∧ (rest.map Prod.fst).Nodup := by
      simpa using hnd
    have ih := flatten_selectGroup_filter keep items k rest hnd2.2
      (fun kv hkv => hent kv (List.mem_cons_of_mem _ hkv))
    have hv : v = items.filter (fun e => decide (e.SeriesID = k')) :=
      hent (k', v) (List.mem_cons_self _ _)
    have hsel : ∀ e ∈ selectGroup keep v, e.SeriesID = k' := by
      intro e he
      have := selectGroup_mem keep v e he
      rw [hv] at this
      simpa using (List.mem_filter.mp this).2
    simp only [List.map_cons, List.flatten_cons, List.filter_append, ih, List.mem_cons]
    by_cases hk : k = k'
    · subst hk
      have h1 : (selectGroup keep v).filter (fun e => decide (e.SeriesID = k)) =
          selectGroup keep v := by
        rw [List.filter_eq_self]
        intro e he
        simpa using hsel e he
      simp [h1, hnd2.1, ← hv]
    · have h1 : (selectGroup keep v).filter (fun e => decide (e.SeriesID = k)) = [] := by
        rw [List.filter_eq_nil_iff]
        intro e he hek
        simp only [decide_eq_true_eq] at hek
        exact hk (hek.symm.trans (hsel e he))
      rw [h1, List.nil_append]
      have hor : (k = k' ∨ k ∈ rest.map Prod.fst) ↔ k ∈ rest.map Prod.fst :=
        ⟨fun h => h.resolve_left hk, Or.inr⟩
      simp only [hor]

/-! ## Theorems: the pipeline -/

theorem mainPipeline_selected (L : Lib) (E : Env) (config : Config) (items : List EmbyItem)
    (now : Time) (libraryIDs : List String) (fs : Node) :
    (mainPipeline L E config items now libraryIDs fs).selected =
        (processGroups L config
          ((E.rangeOrder (seriesEpisodes
            (itemsToDelete L config (watchedCutoff L config now) items))).map Prod.snd)
          { fs := fs, out := [], crashed := false }).selected ∧
      (mainPipeline L E config items now libraryIDs fs).crashed =
        (processGroups L config
          ((E.rangeOrder (seriesEpisodes
            (itemsToDelete L config (watchedCutoff L config now) items))).map Prod.snd)
          { fs := fs, out := [], crashed := false }).crashed := by
  unfold mainPipeline
  simp only
  split
  · exact ⟨rfl, rfl⟩
  · split <;> exact ⟨rfl, rfl⟩

theorem filter_length_lt {α : Type} (p : α → Bool) (l : List α)
    (h : (l.length : Int) < 2 ^ 63) : ((l.filter p).length : Int) < 2 ^ 63 := by
  have := List.length_filter_le p l
  omega

/-- With a keep count that is not negative the run does not panic, and its selection within
a series is the selection of the eligible episodes of that series. -/
theorem mainPipeline_series (L : Lib) (E : Env) (config : Config) (items : List EmbyItem)
    (now : Time) (libraryIDs : List String) (fs : Node)
    (hkeep : 0 ≤ config.KeepLatestEpisodes) (hsize : (items.length : Int) < 2 ^ 63) :
    (mainPipeline L E config items now libraryIDs fs).crashed = false ∧
    (mainPipeline L E config items now libraryIDs fs).selected.Perm
      (((seriesEpisodes (itemsToDelete L config (watchedCutoff L config now) items)).map
        (fun kv => selectGroup config.KeepLatestEpisodes kv.2)).flatten) ∧
    ∀ k : String,
      (mainPipeline L E config items now libraryIDs fs).selected.filter
          (fun e => decide (e.SeriesID = k)) =
        selectGroup config.KeepLatestEpisodes
          ((itemsToDelete L config (watchedCutoff L config now) items).filter
            (fun e => decide (e.SeriesID = k))) := by
  obtain ⟨hs, hc⟩ := mainPipeline_selected L E config items now libraryIDs fs
  generalize hdel : itemsToDelete L config (watchedCutoff L config now) items = del at hs hc
  have hdelsize : (del.length : Int) < 2 ^ 63 := by
    rw [← hdel]; exact filter_length_lt _ _ hsize
  have hperm := E.range_perm (seriesEpisodes del)
  have hG := groupsOf_perm del _ _ hperm (seriesEpisodes_groupsOf del)
  obtain ⟨hnd, hent, hcov⟩ := hG
  have hgsize : ∀ g ∈ (E.rangeOrder (seriesEpisodes del)).map Prod.snd,
      (g.length : Int) < 2 ^ 63 := by
    intro g hg
    obtain ⟨kv, hkv, rfl⟩ := List.mem_map.mp hg
    rw [(hent kv hkv).1]
    exact filter_length_lt _ _ hdelsize
  obtain ⟨h1, h2⟩ := processGroups_spec L config hkeep _
    { fs := fs, out := [], crashed := false } rfl hgsize
  rw [hs, hc, h1, h2]
  have hnil : (Run.selected { fs := fs, out := [], crashed := false }) = [] := rfl
  rw [hnil, List.nil_append]
  refine ⟨rfl, ?_, fun k => ?_⟩
  · have := (hperm.map (fun kv => selectGroup config.KeepLatestEpisodes kv.2)).flatten
    simpa [List.map_map, Function.comp_def] using this
  · rw [flatten_selectGroup_filter config.KeepLatestEpisodes del k _ hnd
      (fun kv hkv => (hent kv hkv).1)]
    split
    · rfl
    · rename_i hk
      have : del.filter (fun e => decide (e.SeriesID = k)) = [] := by
        rw [List.filter_eq_nil_iff]
        intro e he hek
        simp only [decide_eq_true_eq] at hek
        exact hk (hek ▸ hcov e he)
      rw [this, selectGroup_nil _ hkeep]

theorem mainPipeline_selected_eligible (L : Lib) (E : Env) (config : Config)
    (items : List EmbyItem) (now : Time) (libraryIDs : List String) (fs : Node) :
    ∀ e ∈ (mainPipeline L E config items now libraryIDs fs).selected,
      e ∈ items ∧ shouldDelete L e config (watchedCutoff L config now) = true ∧
        e.Type_ = "Episode" ∧ e.Path ≠ "" := by
  intro e he
  rw [(mainPipeline_selected L E config items now libraryIDs fs).1] at he
  rcases processGroups_mem L config _ _ e he with h | ⟨g, hg, heg⟩
  · simp [Run.selected] at h
  · obtain ⟨kv, hkv, rfl⟩ := List.mem_map.mp hg
    have hkv2 := (E.range_perm _).mem_iff.mp hkv
    have hG := seriesEpisodes_groupsOf
      (itemsToDelete L config (watchedCutoff L config now) items)
    rw [(hG.2.1 kv hkv2).1] at heg
    have hdel := (List.mem_filter.mp heg).1
    obtain ⟨hin, hsd⟩ := List.mem_filter.mp hdel
    have hel := (shouldDelete_eq_true_iff L e config _).mp hsd
    exact ⟨hin, hsd, hel.2.1, hel.2.2.1⟩

/-- C2: every episode the pipeline acts on (deletes, or reports in dry-run) is one of the
fetched items and satisfies `shouldDelete`; it has type "Episode" and a non-empty path, so an
item with an empty path or another type is never acted on. This holds for every
configuration, in particular for every one with `KeepLatestEpisodes >= 0`. -/
theorem pipeline_acts_only_on_eligible (L : Lib) (E : Env) (config : Config)
    (items : List EmbyItem) (now : Time) (libraryIDs : List String) (fs : Node) :
    (∀ e ∈ (mainPipeline L E config items now libraryIDs fs).selected,
      e ∈ items ∧ shouldDelete L e config (watchedCutoff L config now) = true ∧
        e.Type_ = "Episode" ∧ e.Path ≠ "") ∧
    (∀ e, e.Path = "" ∨ e.Type_ ≠ "Episode" →
      e ∉ (mainPipeline L E config items now libraryIDs fs).selected) := by
  have main := mainPipeline_selected_eligible L E config items now libraryIDs fs
  refine ⟨main, ?_⟩
  intro e hbad hsel
  obtain ⟨_, _, h1, h2⟩ := main e hsel
  rcases hbad with h | h
  · exact h2 h
  · exact h h1

/-- C2 on a fetched list that holds, next to three eligible episodes, an episode without a
path and an item of type "Movie": the run acts on S1E1 and S1E2 only. -/
theorem pipeline_acts_only_on_eligible_witness :
    (mainPipeline sampleLib sampleEnv (sampleConfig 1 false)
      [ep 3, { ep 0 with Path := "" }, ep 1, { ep 4 with Type_ := "Movie" }, ep 2]
      (1709251200 * 1000000000) ["lib"] sampleFs).selected = [ep 1, ep 2] ∧
    (∀ e ∈ (mainPipeline sampleLib sampleEnv (sampleConfig 1 false)
        [ep 3, { ep 0 with Path := "" }, ep 1, { ep 4 with Type_ := "Movie" }, ep 2]
        (1709251200 * 1000000000) ["lib"] sampleFs).selected,
      e ∈ [ep 3, { ep 0 with Path := "" }, ep 1, { ep 4 with Type_ := "Movie" }, ep 2] ∧
        shouldDelete sampleLib e (sampleConfig 1 false)
          (watchedCutoff sampleLib (sampleConfig 1 false) (1709251200 * 1000000000)) = true ∧
        e.Type_ = "Episode" ∧ e.Path ≠ "") :=
  ⟨by decide, (pipeline_acts_only_on_eligible sampleLib sampleEnv (sampleConfig 1 false)
    [ep 3, { ep 0 with Path := "" }, ep 1, { ep 4 with Type_ := "Movie" }, ep 2]
    (1709251200 * 1000000000) ["lib"] sampleFs).1⟩

/-- C3: for a series group with more than `KeepLatestEpisodes >= 0` eligible episodes, given
in any order, the run deletes exactly `size - KeepLatestEpisodes` episodes of the group and
keeps exactly `KeepLatestEpisodes`, and every deleted episode is at most every kept one in
the order of `(ParentIndexNumber, IndexNumber)`. A Go slice has fewer than `2^63` elements. -/
theorem keepLatest_deletes_earliest (L : Lib) (config : Config) (episodes : List EmbyItem)
    (fs : Node) (hkeep : 0 ≤ config.KeepLatestEpisodes)
    (hlen : config.KeepLatestEpisodes < (episodes.length : Int))
    (hsize : (episodes.length : Int) < 2 ^ 63) :
    (processGroup L config episodes { fs := fs, out := [], crashed := false }).crashed = false ∧
    (((processGroup L config episodes
        { fs := fs, out := [], crashed := false }).selected.length : Int) =
      (episodes.length : Int) - config.KeepLatestEpisodes) ∧
    ∃ kept : List EmbyItem, (kept.length : Int) = config.KeepLatestEpisodes ∧
      ((processGroup L config episodes
        { fs := fs, out := [], crashed := false }).selected ++ kept).Perm episodes ∧
      ∀ d ∈ (processGroup L config episodes
          { fs := fs, out := [], crashed := false }).selected,
        ∀ k ∈ kept, keyLe d k := by
  obtain ⟨h1, h2⟩ := processGroup_spec L config episodes
    { fs := fs, out := [], crashed := false } hkeep hsize
  have hnil : (Run.selected { fs := fs, out := [], crashed := false }) = [] := rfl
  rw [hnil, List.nil_append] at h1
  rw [h1, h2]
  exact ⟨rfl, selectGroup_split _ episodes hkeep hlen⟩

/-- C3 on the series S1E1..S1E5, given out of order, with `KeepLatestEpisodes = 2`: the
deletion set is S1E1, S1E2, S1E3. -/
theorem keepLatest_deletes_earliest_witness :
    (processGroup sampleLib (sampleConfig 2 false) [ep 3, ep 5, ep 1, ep 4, ep 2]
      { fs := sampleFs, out := [], crashed := false }).selected = [ep 1, ep 2, ep 3] ∧
    ((processGroup sampleLib (sampleConfig 2 false) [ep 3, ep 5, ep 1, ep 4, ep 2]
      { fs := sampleFs, out := [], crashed := false }).crashed = false ∧
    (((processGroup sampleLib (sampleConfig 2 false) [ep 3, ep 5, ep 1, ep 4, ep 2]
        { fs := sampleFs, out := [], crashed := false }).selected.length : Int) =
      (([ep 3, ep 5, ep 1, ep 4, ep 2] : List EmbyItem).length : Int) -
        (sampleConfig 2 false).KeepLatestEpisodes) ∧
    ∃ kept : List EmbyItem, (kept.length : Int) = (sampleConfig 2 false).KeepLatestEpisodes ∧
      ((processGroup sampleLib (sampleConfig 2 false) [ep 3, ep 5, ep 1, ep 4, ep 2]
        { fs := sampleFs, out := [], crashed := false }).selected ++ kept).Perm
          [ep 3, ep 5, ep 1, ep 4, ep 2] ∧
      ∀ d ∈ (processGroup sampleLib (sampleConfig 2 false) [ep 3, ep 5, ep 1, ep 4, ep 2]
          { fs := sampleFs, out := [], crashed := false }).selected,
        ∀ k ∈ kept, keyLe d k) :=
  ⟨by decide, keepLatest_deletes_earliest sampleLib (sampleConfig 2 false)
    [ep 3, ep 5, ep 1, ep 4, ep 2] sampleFs (by decide) (by decide) (by decide)⟩

/-- C4: a series group with at most `KeepLatestEpisodes` eligible episodes is left alone: the
run state after the group is the one before it (nothing reported, nothing removed). -/
theorem small_group_untouched (L : Lib) (config : Config) (episodes : List EmbyItem) (r : Run)
    (h : (episodes.length : Int) ≤ config.KeepLatestEpisodes) :
    processGroup L config episodes r = r ∧
      (processGroup L config episodes r).selected = r.selected := by
  rw [processGroup_of_le L config episodes r h]
  exact ⟨rfl, rfl⟩

/-- C4 on a series with exactly `KeepLatestEpisodes = 2` eligible episodes. -/
theorem small_group_untouched_witness :
    processGroup sampleLib (sampleConfig 2 false) [ep 2, ep 1]
        { fs := sampleFs, out := [], crashed := false } =
      { fs := sampleFs, out := [], crashed := false } ∧
    (processGroup sampleLib (sampleConfig 2 false) [ep 2, ep 1]
        { fs := sampleFs, out := [], crashed := false }).selected =
      Run.selected { fs := sampleFs, out := [], crashed := false } :=
  small_group_untouched sampleLib (sampleConfig 2 false) [ep 2, ep 1]
    { fs := sampleFs, out := [], crashed := false } (by decide)

/-- C10: with `KeepLatestEpisodes >= 0`, whenever the selection loop is entered its bound
satisfies `0 < deleteCount = len(episodes) - KeepLatestEpisodes <= len(episodes)` (the
subtraction does not overflow), every index below `deleteCount` is inside the sorted slice,
and the group is processed without the out-of-range panic. -/
theorem deleteLoop_in_bounds (L : Lib) (config : Config) (episodes : List EmbyItem) (r : Run)
    (hkeep : 0 ≤ config.KeepLatestEpisodes) (hsize : (episodes.length : Int) < 2 ^ 63)
    (hentered : ¬ (episodes.length : Int) ≤ config.KeepLatestEpisodes) :
    0 < wrapInt64 (((sortEpisodesByIndexNumber episodes).length : Int) -
        config.KeepLatestEpisodes) ∧
    wrapInt64 (((sortEpisodesByIndexNumber episodes).length : Int) -
        config.KeepLatestEpisodes) = (episodes.length : Int) - config.KeepLatestEpisodes ∧
    wrapInt64 (((sortEpisodesByIndexNumber episodes).length : Int) -
        config.KeepLatestEpisodes) ≤ (episodes.length : Int) ∧
    (∀ i : Nat, (i : Int) < wrapInt64 (((sortEpisodesByIndexNumber episodes).length : Int) -
        config.KeepLatestEpisodes) → ∃ e, (sortEpisodesByIndexNumber episodes)[i]? = some e) ∧
    (processGroup L config episodes r).crashed = r.crashed := by
  have hc := deleteCount_eq config.KeepLatestEpisodes episodes hkeep hsize (not_le.mp hentered)
  rw [hc]
  refine ⟨by omega, rfl, by omega, ?_, (processGroup_spec L config episodes r hkeep hsize).2⟩
  intro i hi
  have hlt : i < (sortEpisodesByIndexNumber episodes).length := by
    rw [sortEpisodes_length]; omega
  exact ⟨_, List.getElem?_eq_getElem hlt⟩

/-- C10 on the series S1E1..S1E5 with `KeepLatestEpisodes = 2`. -/
theorem deleteLoop_in_bounds_witness :
    0 < wrapInt64 (((sortEpisodesByIndexNumber [ep 3, ep 5, ep 1, ep 4, ep 2]).length : Int) -
        (sampleConfig 2 true).KeepLatestEpisodes) ∧
    wrapInt64 (((sortEpisodesByIndexNumber [ep 3, ep 5, ep 1, ep 4, ep 2]).length : Int) -
        (sampleConfig 2 true).KeepLatestEpisodes) =
      (([ep 3, ep 5, ep 1, ep 4, ep 2] : List EmbyItem).length : Int) -
        (sampleConfig 2 true).KeepLatestEpisodes ∧
    wrapInt64 (((sortEpisodesByIndexNumber [ep 3, ep 5, ep 1, ep 4, ep 2]).length : Int) -
        (sampleConfig 2 true).KeepLatestEpisodes) ≤
      (([ep 3, ep 5, ep 1, ep 4, ep 2] : List EmbyItem).length : Int) ∧
    (∀ i : Nat,
      (i : Int) < wrapInt64
        (((sortEpisodesByIndexNumber [ep 3, ep 5, ep 1, ep 4, ep 2]).length : Int) -
          (sampleConfig 2 true).KeepLatestEpisodes) →
      ∃ e, (sortEpisodesByIndexNumber [ep 3, ep 5, ep 1, ep 4, ep 2])[i]? = some e) ∧
    (processGroup sampleLib (sampleConfig 2 true) [ep 3, ep 5, ep 1, ep 4, ep 2]
      { fs := sampleFs, out := [], crashed := false }).crashed = false :=
  deleteLoop_in_bounds sampleLib (sampleConfig 2 true) [ep 3, ep 5, ep 1, ep 4, ep 2]
    { fs := sampleFs, out := [], crashed := false } (by decide) (by decide) (by decide)

/-- With a negative keep count the loop bound exceeds the slice and the run panics after
reporting the whole group. -/
theorem negative_keep_panics :
    (processGroup sampleLib (sampleConfig (-1) true) [ep 1]
      { fs := sampleFs, out := [], crashed := false }).crashed = true := by
  decide

theorem itemsToDelete_dryRun (L : Lib) (config : Config) (b : Bool) (cutoff : Time)
    (items : List EmbyItem) :
    itemsToDelete L { config with DryRun := b } cutoff items =
      itemsToDelete L config cutoff items := rfl

theorem mainPipeline_dryRun_fs (L : Lib) (E : Env) (config : Config) (items : List EmbyItem)
    (now : Time) (libraryIDs : List String) (fs : Node) (hdry : config.DryRun = true) :
    (mainPipeline L E config items now libraryIDs fs).fs = fs := by
  unfold mainPipeline
  simp only [hdry, Bool.not_true, Bool.and_false, Bool.false_eq_true, if_false, ite_self]
  exact processGroups_dryRun_fs L config hdry _ _

/-- C6: two runs over the same input whose configurations differ only in `DryRun` select the
same episodes in the same order when `range` enumerates the series alike, and have the same
outcome; whatever the two enumeration orders are, with `KeepLatestEpisodes >= 0` the
selections agree within every series, in the same order, and are permutations of each other.
The dry run leaves the filesystem as it was: no file is removed and the pruning step is not
run. -/
theorem dryRun_same_selection_no_mutation (L : Lib) (E E' : Env) (config : Config)
    (items : List EmbyItem) (now : Time) (libraryIDs : List String) (fs : Node) :
    ((mainPipeline L E { config with DryRun := true } items now libraryIDs fs).selected =
        (mainPipeline L E { config with DryRun := false } items now libraryIDs fs).selected ∧
      (mainPipeline L E { config with DryRun := true } items now libraryIDs fs).crashed =
        (mainPipeline L E { config with DryRun := false } items now libraryIDs fs).crashed) ∧
    (0 ≤ config.KeepLatestEpisodes → (items.length : Int) < 2 ^ 63 →
      (∀ k : String,
        (mainPipeline L E { config with DryRun := true } items now libraryIDs fs).selected.filter
            (fun e => decide (e.SeriesID = k)) =
          (mainPipeline L E' { config with DryRun := false } items now libraryIDs
            fs).selected.filter (fun e => decide (e.SeriesID = k))) ∧
      (mainPipeline L E { config with DryRun := true } items now libraryIDs fs).selected.Perm
        (mainPipeline L E' { config with DryRun := false } items now libraryIDs fs).selected) ∧
    (mainPipeline L E { config with DryRun := true } items now libraryIDs fs).fs = fs := by
  refine ⟨?_, ?_, mainPipeline_dryRun_fs L E _ items now libraryIDs fs rfl⟩
  · obtain ⟨h1, h2⟩ := mainPipeline_selected L E { config with DryRun := true } items now
      libraryIDs fs
    obtain ⟨h3, h4⟩ := mainPipeline_selected L E { config with DryRun := false } items now
      libraryIDs fs
    rw [h1, h2, h3, h4]
    exact processGroups_congr L { config with DryRun := true } { config with DryRun := false }
      rfl ((E.rangeOrder (seriesEpisodes
        (itemsToDelete L config (watchedCutoff L config now) items))).map Prod.snd)
      { fs := fs, out := [], crashed := false } { fs := fs, out := [], crashed := false }
      rfl rfl
  · intro hkeep hsize
    obtain ⟨_, hp1, hf1⟩ := mainPipeline_series L E { config with DryRun := true } items now
      libraryIDs fs hkeep hsize
    obtain ⟨_, hp2, hf2⟩ := mainPipeline_series L E' { config with DryRun := false } items now
      libraryIDs fs hkeep hsize
    refine ⟨fun k => ?_, hp1.trans hp2.symm⟩
    rw [hf1 k, hf2 k]
    rfl

/-- C6 on two series, the dry run enumerating them in insertion order and the other run in
reverse order. -/
theorem dryRun_same_selection_no_mutation_witness :
    (∀ k : String,
      (mainPipeline sampleLib sampleEnv { sampleConfig 1 false with DryRun := true }
          [ep 2, epOther 1, ep 1, epOther 2, ep 3] (1709251200 * 1000000000) ["lib"]
          sampleFs).selected.filter (fun e => decide (e.SeriesID = k)) =
        (mainPipeline sampleLib reverseEnv { sampleConfig 1 false with DryRun := false }
          [ep 2, epOther 1, ep 1, epOther 2, ep 3] (1709251200 * 1000000000) ["lib"]
          sampleFs).selected.filter (fun e => decide (e.SeriesID = k))) ∧
    (mainPipeline sampleLib sampleEnv { sampleConfig 1 false with DryRun := true }
        [ep 2, epOther 1, ep 1, epOther 2, ep 3] (1709251200 * 1000000000) ["lib"]
        sampleFs).selected.Perm
      (mainPipeline sampleLib reverseEnv { sampleConfig 1 false with DryRun := false }
        [ep 2, epOther 1, ep 1, epOther 2, ep 3] (1709251200 * 1000000000) ["lib"]
        sampleFs).selected :=
  (dryRun_same_selection_no_mutation sampleLib sampleEnv reverseEnv (sampleConfig 1 false)
    [ep 2, epOther 1, ep 1, epOther 2, ep 3] (1709251200 * 1000000000) ["lib"]
    sampleFs).2.1 (by decide) (by decide)

/-! ## Theorems: the end-to-end scenario -/

theorem keepOne_group (g : List EmbyItem) (hlen : g.length = 3)
    (hdist : g.Pairwise distinctIndex) :
    (selectGroup 1 g).length = 2 ∧
    ∃ top ∈ g, (∀ e ∈ g, keyLe e top) ∧ top ∉ selectGroup 1 g ∧
      ∀ e ∈ g, e ≠ top → e ∈ selectGroup 1 g := by
  obtain ⟨h1, kept, h2, h3, h4⟩ := selectGroup_split 1 g (by decide) (by rw [hlen]; decide)
  have hk : kept.length = 1 := by omega
  obtain ⟨t, rfl⟩ := List.length_eq_one.mp hk
  have hmem : ∀ e, e ∈ g ↔ e ∈ selectGroup 1 g ∨ e = t := by
    intro e
    rw [← h3.mem_iff, List.mem_append, List.mem_singleton]
  have hsym : ∀ {x y : EmbyItem}, distinctIndex x y → distinctIndex y x := by
    intro x y h hxy
    exact h ⟨hxy.1.symm, hxy.2.symm⟩
  have hpw := (h3.pairwise_iff hsym).mpr hdist
  refine ⟨by omega, t, (hmem t).mpr (Or.inr rfl), ?_, ?_, ?_⟩
  · intro e he
    rcases (hmem e).mp he with h | h
    · exact h4 e h t (List.mem_singleton_self t)
    · rw [h]; exact keyLe_refl t
  · intro ht
    have := (List.pairwise_append.mp hpw).2.2 t ht t (List.mem_singleton_self t)
    exact this ⟨rfl, rfl⟩
  · intro e he hne
    exact ((hmem e).mp he).resolve_right hne

/-- C8: two series with distinct ids, three episodes each, all of type "Episode" with a
path, unprotected, played 60 days before `now`, with distinct index pairs within a series;
`WatchedDaysAgo = 30` and `KeepLatestEpisodes = 1`. The run acts on exactly 4 episodes: of
each series it keeps the episode with the highest index pair and deletes the other two. The
library is assumed to place `now.AddDate(0, 0, -30)` no earlier than 60 days before `now`. -/
theorem two_series_end_to_end (L : Lib) (E : Env) (config : Config) (items : List EmbyItem)
    (now : Time) (libraryIDs : List String) (fs : Node) (sa sb : String)
    (hne : sa ≠ sb)
    (hA : (items.filter (fun e => decide (e.SeriesID = sa))).length = 3)
    (hB : (items.filter (fun e => decide (e.SeriesID = sb))).length = 3)
    (hall : ∀ e ∈ items, (e.SeriesID = sa ∨ e.SeriesID = sb) ∧ e.Type_ = "Episode" ∧
      e.Path ≠ "" ∧ ¬ (e.UserData.IsFavorite = true ∧ config.ProtectFavorites = true) ∧
      (∀ itemTag ∈ e.Tags, ∀ protectTag ∈ config.ProtectTags,
        L.equalFold itemTag protectTag = false) ∧
      e.UserData.Played = true ∧
      L.parseRFC3339 e.UserData.LastPlayedDate = some (now - 60 * nsPerDay))
    (hdist : items.Pairwise (fun x y => x.SeriesID = y.SeriesID → distinctIndex x y))
    (hdays : config.WatchedDaysAgo = 30) (hkeep : config.KeepLatestEpisodes = 1)
    (hlib : now - 60 * nsPerDay ≤ L.addDays now (-30)) :
    (mainPipeline L E config items now libraryIDs fs).crashed = false ∧
    (mainPipeline L E config items now libraryIDs fs).selected.length = 4 ∧
    ∀ s, s = sa ∨ s = sb →
      ((mainPipeline L E config items now libraryIDs fs).selected.filter
        (fun e => decide (e.SeriesID = s))).length = 2 ∧
      ∃ top ∈ items, top.SeriesID = s ∧
        (∀ e ∈ items, e.SeriesID = s → keyLe e top) ∧
        top ∉ (mainPipeline L E config items now libraryIDs fs).selected ∧
        ∀ e ∈ items, e.SeriesID = s → e ≠ top →
          e ∈ (mainPipeline L E config items now libraryIDs fs).selected := by
  have hcut : watchedCutoff L config now = L.addDays now (-30) := by
    unfold watchedCutoff
    rw [hdays]
    rfl
  have hdel : itemsToDelete L config (watchedCutoff L config now) items = items := by
    unfold itemsToDelete
    rw [List.filter_eq_self]
    intro e he
    obtain ⟨_, h1, h2, h3, h4, h5, h6⟩ := hall e he
    rw [shouldDelete_eq_true_iff]
    refine ⟨h3, h1, h2, h4, h5, ?_, _, h6, ?_⟩
    · intro hempty
      rw [hempty, L.parse_empty] at h6
      exact Option.noConfusion h6
    · rw [hcut]
      exact not_lt.mpr hlib
  have hnotA : items.filter (fun e => !decide (e.SeriesID = sa)) =
      items.filter (fun e => decide (e.SeriesID = sb)) := by
    apply List.filter_congr
    intro e he
    rcases (hall e he).1 with h | h
    · simp [h, hne]
    · simp [h, Ne.symm hne]
  have hsize : (items.length : Int) < 2 ^ 63 := by
    have := List.length_eq_length_filter_add (l := items) (fun e => decide (e.SeriesID = sa))
    rw [hnotA, hA, hB] at this
    rw [this]
    decide
  obtain ⟨hc, _, hf⟩ := mainPipeline_series L E config items now libraryIDs fs
    (by rw [hkeep]; decide) hsize
  rw [hdel, hkeep] at hf
  have hselmem : ∀ e ∈ (mainPipeline L E config items now libraryIDs fs).selected,
      e ∈ items :=
    fun e he => (mainPipeline_selected_eligible L E config items now libraryIDs fs e he).1
  have hgroup : ∀ s, s = sa ∨ s = sb →
      (items.filter (fun e => decide (e.SeriesID = s))).length = 3 ∧
      (items.filter (fun e => decide (e.SeriesID = s))).Pairwise distinctIndex := by
    intro s hs
    refine ⟨by rcases hs with h | h <;> rw [h] <;> assumption, ?_⟩
    refine List.Pairwise.imp_of_mem ?_ (hdist.filter _)
    intro x y hx hy hxy
    have h1 := (List.mem_filter.mp hx).2
    have h2 := (List.mem_filter.mp hy).2
    simp only [decide_eq_true_eq] at h1 h2
    exact hxy (h1.trans h2.symm)
  refine ⟨hc, ?_, ?_⟩
  · have hlen := List.length_eq_length_filter_add
      (l := (mainPipeline L E config items now libraryIDs fs).selected)
      (fun e => decide (e.SeriesID = sa))
    have hnotA2 : (mainPipeline L E config items now libraryIDs fs).selected.filter
          (fun e => !decide (e.SeriesID = sa)) =
        (mainPipeline L E config items now libraryIDs fs).selected.filter
          (fun e => decide (e.SeriesID = sb)) := by
      apply List.filter_congr
      intro e he
      rcases (hall e (hselmem e he)).1 with h | h
      · simp [h, hne]
      · simp [h, Ne.symm hne]
    rw [hnotA2, hf sa, hf sb] at hlen
    rw [hlen, (keepOne_group _ (hgroup sa (Or.inl rfl)).1 (hgroup sa (Or.inl rfl)).2).1,
      (keepOne_group _ (hgroup sb (Or.inr rfl)).1 (hgroup sb (Or.inr rfl)).2).1]
  · intro s hs
    obtain ⟨h1, top, htop, h2, h3, h4⟩ := keepOne_group _ (hgroup s hs).1 (hgroup s hs).2
    obtain ⟨htop1, htop2⟩ := List.mem_filter.mp htop
    simp only [decide_eq_true_eq] at htop2
    rw [hf s]
    refine ⟨h1, top, htop1, htop2, ?_, ?_, ?_⟩
    · intro e he hes
      exact h2 e (List.mem_filter.mpr ⟨he, by simpa using hes⟩)
    · intro hsel
      apply h3
      rw [← hf s]
      exact List.mem_filter.mpr ⟨hsel, by simpa using htop2⟩
    · intro e he hes hne2
      have := h4 e (List.mem_filter.mpr ⟨he, by simpa using hes⟩) hne2
      rw [← hf s] at this
      exact (List.mem_filter.mp this).1

/-- C8 on the series "show" and "other", three episodes each, interleaved, last played on
2024-01-01, with `now` = 2024-03-01, 60 days later. -/
theorem two_series_end_to_end_witness :
    (mainPipeline sampleLib sampleEnv (sampleConfig 1 false)
      [ep 2, epOther 3, ep 1, epOther 1, ep 3, epOther 2] (1709251200 * 1000000000) ["lib"]
      sampleFs).selected = [ep 1, ep 2, epOther 1, epOther 2] ∧
    ((mainPipeline sampleLib sampleEnv (sampleConfig 1 false)
      [ep 2, epOther 3, ep 1, epOther 1, ep 3, epOther 2] (1709251200 * 1000000000) ["lib"]
      sampleFs).crashed = false ∧
    (mainPipeline sampleLib sampleEnv (sampleConfig 1 false)
      [ep 2, epOther 3, ep 1, epOther 1, ep 3, epOther 2] (1709251200 * 1000000000) ["lib"]
      sampleFs).selected.length = 4 ∧
    ∀ s, s = "show" ∨ s = "other" →
      ((mainPipeline sampleLib sampleEnv (sampleConfig 1 false)
        [ep 2, epOther 3, ep 1, epOther 1, ep 3, epOther 2] (1709251200 * 1000000000) ["lib"]
        sampleFs).selected.filter (fun e => decide (e.SeriesID = s))).length = 2 ∧
      ∃ top ∈ [ep 2, epOther 3, ep 1, epOther 1, ep 3, epOther 2], top.SeriesID = s ∧
        (∀ e ∈ [ep 2, epOther 3, ep 1, epOther 1, ep 3, epOther 2],
          e.SeriesID = s → keyLe e top) ∧
        top ∉ (mainPipeline sampleLib sampleEnv (sampleConfig 1 false)
          [ep 2, epOther 3, ep 1, epOther 1, ep 3, epOther 2] (1709251200 * 1000000000)
          ["lib"] sampleFs).selected ∧
        ∀ e ∈ [ep 2, epOther 3, ep 1, epOther 1, ep 3, epOther 2], e.SeriesID = s →
          e ≠ top →
          e ∈ (mainPipeline sampleLib sampleEnv (sampleConfig 1 false)
            [ep 2, epOther 3, ep 1, epOther 1, ep 3, epOther 2] (1709251200 * 1000000000)
            ["lib"] sampleFs).selected) :=
  ⟨by decide, two_series_end_to_end sampleLib sampleEnv (sampleConfig 1 false)
    [ep 2, epOther 3, ep 1, epOther 1, ep 3, epOther 2] (1709251200 * 1000000000) ["lib"]
    sampleFs "show" "other" (by decide) (by decide) (by decide) (by decide) (by decide)
    rfl rfl (by decide)⟩

/-! ## Theorems: the filesystem -/

theorem lookup_nil (n : Node) : n.lookup [] = some n := by
  cases n <;> simp [Node.lookup]

theorem lookupEntries_append_entries (l r : List (String × Node)) (c : String) (p : Path)
    (hc : c ∉ l.map Prod.fst) : lookupEntries (l ++ r) c p = lookupEntries r c p := by
  induction l with
  | nil => rfl
  | cons x l ih =>
    obtain ⟨name, n⟩ := x
    simp only [List.map_cons, List.mem_cons, not_or] at hc
    have hne : ¬ name = c := fun h => hc.1 h.symm
    simp only [List.cons_append, lookupEntries, hne, if_false]
    exact ih hc.2

theorem lookup_append (q : Path) :
    ∀ (p : Path) (fs : Node), fs.lookup (p ++ q) = (fs.lookup p).bind (fun n => n.lookup q)
  | [], fs => by simp [lookup_nil]
  | c :: p, .file => by
    cases q <;> simp [Node.lookup]
  | c :: p, .dir es => by
    simp only [List.cons_append, Node.lookup]
    induction es with
    | nil => simp [lookupEntries]
    | cons x es ih =>
      obtain ⟨name, n⟩ := x
      simp only [lookupEntries]
      split
      · exact lookup_append q p n
      · exact ih

theorem lookup_replace (n' : Node) :
    ∀ (p : Path) (fs n : Node), fs.lookup p = some n → (fs.replace p n').lookup p = some n'
  | [], fs, n, _ => by simp [Node.replace, lookup_nil]
  | c :: p, .file, n, h => by simp [Node.lookup] at h
  | c :: p, .dir es, n, h => by
    simp only [Node.lookup] at h
    simp only [Node.replace, Node.lookup]
    induction es with
    | nil => simp [lookupEntries] at h
    | cons x es ih =>
      obtain ⟨name, m⟩ := x
      simp only [lookupEntries] at h
      simp only [replaceEntries]
      by_cases hc : name = c
      · simp only [hc, if_true] at h
        simp only [hc, if_true, lookupEntries]
        exact lookup_replace n' p m n h
      · simp only [hc, if_false] at h
        simp only [hc, if_false, lookupEntries]
        exact ih h

theorem replace_replace (n1 n2 : Node) :
    ∀ (p : Path) (fs : Node), (fs.replace p n1).replace p n2 = fs.replace p n2
  | [], fs => by simp [Node.replace]
  | c :: p, .file => by simp [Node.replace]
  | c :: p, .dir es => by
    simp only [Node.replace, Node.dir.injEq]
    induction es with
    | nil => simp [replaceEntries]
    | cons x es ih =>
      obtain ⟨name, m⟩ := x
      simp only [replaceEntries]
      by_cases hc : name = c
      · simp only [hc, if_true, replaceEntries]
        rw [replace_replace n1 n2 p m]
      · simp only [hc, if_false, replaceEntries]
        rw [ih]

theorem replace_self :
    ∀ (p : Path) (fs n : Node), fs.lookup p = some n → fs.replace p n = fs
  | [], fs, n, h => by
    rw [lookup_nil] at h
    simp only [Node.replace]
    exact (Option.some.inj h).symm
  | c :: p, .file, n, h => by simp [Node.lookup] at h
  | c :: p, .dir es, n, h => by
    simp only [Node.lookup] at h
    simp only [Node.replace, Node.dir.injEq]
    induction es with
    | nil => simp [replaceEntries]
    | cons x es ih =>
      obtain ⟨name, m⟩ := x
      simp only [lookupEntries] at h
      simp only [replaceEntries]
      by_cases hc : name = c
      · simp only [hc, if_true] at h
        simp only [hc, if_true]
        rw [replace_self p m n h]
      · simp only [hc, if_false] at h
        simp only [hc, if_false]
        rw [ih h]

theorem remove_replace (n' : Node) (q : Path) (hq : q ≠ []) :
    ∀ (p : Path) (fs n : Node), fs.lookup p = some n →
      (fs.replace p n').remove (p ++ q) = (n'.remove q).map (fun x => fs.replace p x)
  | [], fs, n, _ => by
    simp only [Node.replace, List.nil_append]
    cases n'.remove q <;> rfl
  | c :: p, .file, n, h => by simp [Node.lookup] at h
  | c :: p, .dir es, n, h => by
    simp only [Node.lookup] at h
    simp only [Node.replace, List.cons_append, Node.remove]
    obtain ⟨y, ys, hy⟩ : ∃ y ys, p ++ q = y :: ys := by
      cases hpq : p ++ q with
      | nil => simp [hq] at hpq
      | cons y ys => exact ⟨y, ys, rfl⟩
    induction es with
    | nil => simp [lookupEntries] at h
    | cons x es ih =>
      obtain ⟨name, m⟩ := x
      simp only [lookupEntries] at h
      simp only [replaceEntries]
      by_cases hc : name = c
      · simp only [hc, if_true] at h
        have ihm := remove_replace n' q hq p m n h
        simp only [hc, if_true]
        rw [hy] at ihm ⊢
        simp only [removeEntries, if_true]
        rw [ihm]
        cases n'.remove q <;> rfl
      · simp only [hc, if_false] at h
        have ih2 := ih h
        simp only [hc, if_false, removeEntries]
        cases hrem : removeEntries (replaceEntries es c p n') c (p ++ q) with
        | none =>
          rw [hrem] at ih2
          cases hr : n'.remove q with
          | none => rfl
          | some v => simp [hr] at ih2
        | some v =>
          rw [hrem] at ih2
          cases hr : n'.remove q with
          | none => simp [hr] at ih2
          | some w =>
            rw [hr] at ih2
            simp only [Option.map_some', Option.some.injEq, Node.dir.injEq] at ih2 ⊢
            rw [ih2]

theorem lookup_child (l r : List (String × Node)) (name : String) (c : Node)
    (hl : name ∉ l.map Prod.fst) :
    (Node.dir (l ++ (name, c) :: r)).lookup [name] = some c := by
  simp only [Node.lookup]
  rw [lookupEntries_append_entries l _ name [] hl]
  simp [lookupEntries, lookup_nil]

theorem replace_child (l r : List (String × Node)) (name : String) (c x : Node)
    (hl : name ∉ l.map Prod.fst) :
    (Node.dir (l ++ (name, c) :: r)).replace [name] x = Node.dir (l ++ (name, x) :: r) := by
  simp only [Node.replace, Node.dir.injEq]
  induction l with
  | nil => simp [replaceEntries, Node.replace]
  | cons y l ih =>
    obtain ⟨name2, m⟩ := y
    simp only [List.map_cons, List.mem_cons, not_or] at hl
    have hne : ¬ name2 = name := fun h => hl.1 h.symm
    simp only [List.cons_append, replaceEntries, hne, if_false]
    exact congrArg (fun t => (name2, m) :: t) (ih hl.2)

theorem remove_child (l r : List (String × Node)) (name : String)
    (hl : name ∉ l.map Prod.fst) :
    (Node.dir (l ++ (name, Node.dir []) :: r)).remove [name] = some (Node.dir (l ++ r)) := by
  simp only [Node.remove]
  induction l with
  | nil => simp [removeEntries]
  | cons y l ih =>
    obtain ⟨name2, m⟩ := y
    simp only [List.map_cons, List.mem_cons, not_or] at hl
    have hne : ¬ name2 = name := fun h => hl.1 h.symm
    simp only [List.cons_append, removeEntries, hne, if_false]
    have := ih hl.2
    cases hrem : removeEntries (l ++ (name, Node.dir []) :: r) name [] with
    | none => simp [hrem] at this
    | some v =>
      simp only [hrem, Option.map_some', Option.some.injEq, Node.dir.injEq] at this
      simp [this]

theorem pruneStep_of_ne (basePath : Path) (fs : Node) (folder : Path) (h : folder ≠ basePath) :
    pruneStep basePath fs folder = removeIfEmpty fs folder := by
  simp [pruneStep, removeIfEmpty, h]

theorem removeIfEmpty_append (fs n : Node) (p q : Path) (hp : fs.lookup p = some n)
    (hq : q ≠ []) : removeIfEmpty fs (p ++ q) = fs.replace p (removeIfEmpty n q) := by
  have hlook : fs.lookup (p ++ q) = n.lookup q := by
    rw [lookup_append, hp]; rfl
  have hrem : fs.remove (p ++ q) = (n.remove q).map (fun x => fs.replace p x) := by
    have := remove_replace n q hq p fs n hp
    rwa [replace_self p fs n hp] at this
  have hself := replace_self p fs n hp
  unfold removeIfEmpty isDirEmpty
  rw [hlook, hrem]
  cases hn : n.lookup q with
  | none => simp [hself]
  | some d =>
    cases d with
    | file => simp [hself]
    | dir es =>
      cases es with
      | nil =>
        cases hr : n.remove q with
        | none => simp [hself]
        | some v => simp
      | cons x xs => simp [hself]

theorem foldl_removeIfEmpty_append (p : Path) :
    ∀ (qs : List Path) (fs n : Node), fs.lookup p = some n → (∀ q ∈ qs, q ≠ []) →
      (qs.map (fun q => p ++ q)).foldl removeIfEmpty fs =
        fs.replace p (qs.foldl removeIfEmpty n)
  | [], fs, n, hp, _ => by
    simp only [List.map_nil, List.foldl_nil]
    exact (replace_self p fs n hp).symm
  | q :: qs, fs, n, hp, hq => by
    simp only [List.map_cons, List.foldl_cons]
    rw [removeIfEmpty_append fs n p q hp (hq q (List.mem_cons_self _ _))]
    rw [foldl_removeIfEmpty_append p qs _ (removeIfEmpty n q) (lookup_replace _ p fs n hp)
      (fun q' hq' => hq q' (List.mem_cons_of_mem _ hq'))]
    rw [replace_replace]

mutual
theorem walkDirs_eq_map : ∀ (n : Node) (p : Path),
    walkDirs p n = (walkDirs [] n).map (fun q => p ++ q)
  | .file, p => by simp [walkDirs]
  | .dir es, p => by
    simp only [walkDirs, List.map_cons, List.append_nil]
    rw [walkEntries_eq_map es p]
theorem walkEntries_eq_map : ∀ (es : List (String × Node)) (p : Path),
    walkEntries p es = (walkEntries [] es).map (fun q => p ++ q)
  | [], p => by simp [walkEntries]
  | (name, n) :: rest, p => by
    simp only [walkEntries, List.map_append, List.nil_append]
    rw [walkDirs_eq_map n (p ++ [name]), walkDirs_eq_map n [name], walkEntries_eq_map rest p]
    simp [List.map_map, Function.comp_def]
end

theorem walkDirs_child_ne_nil (name : String) (n : Node) :
    ∀ q ∈ walkDirs [name] n, q ≠ [] := by
  intro q hq
  rw [walkDirs_eq_map] at hq
  obtain ⟨x, _, rfl⟩ := List.mem_map.mp hq
  simp

theorem walkEntries_ne_nil : ∀ (es : List (String × Node)), ∀ q ∈ walkEntries [] es, q ≠ []
  | [], q, hq => by simp [walkEntries] at hq
  | (name, n) :: rest, q, hq => by
    simp only [walkEntries, List.nil_append, List.mem_append] at hq
    rcases hq with h | h
    · exact walkDirs_child_ne_nil name n q h
    · exact walkEntries_ne_nil rest q h

theorem removeIfEmpty_child (l r : List (String × Node)) (name : String) (c : Node)
    (hl : name ∉ l.map Prod.fst) :
    removeIfEmpty (Node.dir (l ++ (name, c) :: r)) [name] =
      if c.isEmptyDir then Node.dir (l ++ r) else Node.dir (l ++ (name, c) :: r) := by
  unfold removeIfEmpty isDirEmpty
  rw [lookup_child l r name c hl]
  cases c with
  | file => simp [Node.isEmptyDir]
  | dir es =>
    cases es with
    | nil => simp [Node.isEmptyDir, remove_child l r name hl]
    | cons x xs => simp [Node.isEmptyDir]

mutual
theorem prune_run : ∀ (n : Node), n.WF →
    (walkDirs [] n).tail.reverse.foldl removeIfEmpty n = n.prune
  | .file, _ => by simp [walkDirs, Node.prune]
  | .dir es, h => by
    simp only [walkDirs, List.tail_cons, Node.prune]
    simp only [Node.WF] at h
    exact pruneEntries_run es [] (by simp) h
theorem pruneEntries_run : ∀ (es l : List (String × Node)),
    (∀ name ∈ es.map Prod.fst, name ∉ l.map Prod.fst) → entriesWF es →
    (walkEntries [] es).reverse.foldl removeIfEmpty (Node.dir (l ++ es)) =
      Node.dir (l ++ pruneEntries es)
  | [], l, _, _ => by simp [walkEntries, pruneEntries]
  | (name, n) :: rest, l, hl, hwf => by
    simp only [entriesWF] at hwf
    obtain ⟨hname, hn, hrest⟩ := hwf
    have hnl : name ∉ l.map Prod.fst := hl name (by simp)
    have hA := pruneEntries_run rest (l ++ [(name, n)]) (by
      intro nm hnm
      simp only [List.map_append, List.map_cons, List.map_nil, List.mem_append,
        List.mem_singleton, not_or]
      refine ⟨hl nm (by simp [hnm]), ?_⟩
      intro heq
      exact hname (heq ▸ hnm)) hrest
    simp only [List.append_assoc, List.singleton_append] at hA
    simp only [walkEntries, List.nil_append, List.reverse_append, List.foldl_append]
    rw [hA]
    cases n with
    | file =>
      simp [walkDirs, pruneEntries, Node.prune, Node.isEmptyDir]
    | dir es' =>
      have hrun := prune_run (Node.dir es') hn
      simp only [walkDirs, List.tail_cons] at hrun
      have hsim := foldl_removeIfEmpty_append [name] (walkEntries [] es').reverse
        (Node.dir (l ++ (name, Node.dir es') :: pruneEntries rest)) (Node.dir es')
        (lookup_child l _ name _ hnl)
        (fun q hq => walkEntries_ne_nil es' q (List.mem_reverse.mp hq))
      rw [hrun, replace_child l _ name _ _ hnl] at hsim
      simp only [walkDirs, List.reverse_cons, List.foldl_append, List.foldl_cons,
        List.foldl_nil]
      rw [walkEntries_eq_map es' [name], ← List.map_reverse, hsim,
        removeIfEmpty_child l _ name _ hnl]
      simp only [pruneEntries]
      split <;> rfl
end

theorem foldl_pruneStep (basePath : Path) :
    ∀ (folders : List Path) (fs : Node), (∀ f ∈ folders, f ≠ basePath) →
      folders.foldl (pruneStep basePath) fs = folders.foldl removeIfEmpty fs
  | [], _, _ => rfl
  | f :: rest, fs, h => by
    simp only [List.foldl_cons]
    rw [pruneStep_of_ne basePath fs f (h f (List.mem_cons_self _ _))]
    exact foldl_pruneStep basePath rest _ (fun g hg => h g (List.mem_cons_of_mem _ hg))

/-- One pass of `removeEmptyFolders` prunes the tree below `basePath`. -/
theorem removeEmptyFolders_eq (basePath : Path) (fs root : Node)
    (hroot : fs.lookup basePath = some root) (hwf : root.WF) :
    removeEmptyFolders basePath fs = some (fs.replace basePath root.prune) := by
  unfold removeEmptyFolders
  rw [hroot]
  simp only [Option.some.injEq]
  cases root with
  | file =>
    simp only [walkDirs, List.reverse_nil, List.foldl_nil, Node.prune]
    exact (replace_self basePath fs _ hroot).symm
  | dir es =>
    have hrun := prune_run (Node.dir es) hwf
    simp only [walkDirs, List.tail_cons] at hrun
    simp only [walkDirs, List.reverse_cons, List.foldl_append, List.foldl_cons, List.foldl_nil]
    have hlast : ∀ s : Node, pruneStep basePath s basePath = s := by
      intro s; simp [pruneStep]
    rw [hlast, walkEntries_eq_map es basePath, ← List.map_reverse, foldl_pruneStep,
      foldl_removeIfEmpty_append basePath _ fs (Node.dir es) hroot
        (fun q hq => walkEntries_ne_nil es q (List.mem_reverse.mp hq)), hrun]
    intro f hf
    obtain ⟨q, hq, rfl⟩ := List.mem_map.mp hf
    have hne := walkEntries_ne_nil es q (List.mem_reverse.mp hq)
    intro heq
    have hlen := congrArg List.length heq
    simp only [List.length_append] at hlen
    cases q with
    | nil => exact hne rfl
    | cons a b => simp at hlen

theorem walkDirs_mem_extends (p : Path) (n : Node) : ∀ q ∈ walkDirs p n, p <+: q := by
  intro q hq
  rw [walkDirs_eq_map] at hq
  obtain ⟨x, _, rfl⟩ := List.mem_map.mp hq
  exact List.prefix_append p x

theorem walkEntries_mem_extends (p : Path) :
    ∀ (es : List (String × Node)), ∀ q ∈ walkEntries p es,
      ∃ name ∈ es.map Prod.fst, (p ++ [name]) <+: q
  | [], q, hq => by simp [walkEntries] at hq
  | (name, n) :: rest, q, hq => by
    simp only [walkEntries, List.mem_append] at hq
    rcases hq with h | h
    · exact ⟨name, by simp, walkDirs_mem_extends _ n q h⟩
    · obtain ⟨nm, hnm, hpre⟩ := walkEntries_mem_extends p rest q h
      exact ⟨nm, by simp [hnm], hpre⟩

mutual
theorem walkDirs_pairwise : ∀ (n : Node) (p : Path), n.WF →
    (walkDirs p n).Pairwise (fun a b => ¬ b <+: a)
  | .file, p, _ => by simp [walkDirs]
  | .dir es, p, h => by
    simp only [Node.WF] at h
    simp only [walkDirs, List.pairwise_cons]
    refine ⟨?_, walkEntries_pairwise es p h⟩
    intro q hq hpre
    obtain ⟨nm, _, hnm⟩ := walkEntries_mem_extends p es q hq
    have h1 := hnm.length_le
    have h2 := hpre.length_le
    simp only [List.length_append, List.length_singleton] at h1
    omega
theorem walkEntries_pairwise : ∀ (es : List (String × Node)) (p : Path), entriesWF es →
    (walkEntries p es).Pairwise (fun a b => ¬ b <+: a)
  | [], p, _ => by simp [walkEntries]
  | (name, n) :: rest, p, h => by
    simp only [entriesWF] at h
    obtain ⟨hname, hn, hrest⟩ := h
    simp only [walkEntries]
    rw [List.pairwise_append]
    refine ⟨walkDirs_pairwise n (p ++ [name]) hn, walkEntries_pairwise rest p hrest, ?_⟩
    intro a ha b hb hpre
    have h1 := walkDirs_mem_extends _ n a ha
    obtain ⟨nm, hnm, h2⟩ := walkEntries_mem_extends p rest b hb
    have h3 := h2.trans hpre
    have h4 : p ++ [nm] <+: p ++ [name] :=
      List.prefix_of_prefix_length_le h3 h1 (by simp)
    have h5 := h4.eq_of_length (by simp)
    have h6 : nm = name := by simpa using h5
    exact hname (h6 ▸ hnm)
end

theorem walkDirs_complete :
    ∀ (rel : Path) (n : Node) (p : Path) (d : Node), n.lookup rel = some d →
      d.isDir = true → p ++ rel ∈ walkDirs p n
  | [], n, p, d, h, hd => by
    rw [lookup_nil] at h
    cases Option.some.inj h
    cases n with
    | file => simp [Node.isDir] at hd
    | dir es => simp [walkDirs]
  | c :: rel, .file, p, d, h, _ => by simp [Node.lookup] at h
  | c :: rel, .dir es, p, d, h, hd => by
    simp only [Node.lookup] at h
    simp only [walkDirs, List.mem_cons]
    right
    induction es with
    | nil => simp [lookupEntries] at h
    | cons x es ih =>
      obtain ⟨name, m⟩ := x
      simp only [lookupEntries] at h
      simp only [walkEntries, List.mem_append]
      by_cases hc : name = c
      · simp only [hc, if_true] at h
        left
        have := walkDirs_complete rel m (p ++ [c]) d h hd
        rw [hc]
        simpa using this
      · simp only [hc, if_false] at h
        exact Or.inr (ih h)

theorem pruneStep_cases (basePath : Path) (s : Node) (folder : Path) :
    pruneStep basePath s folder = s ∨
      (folder ≠ basePath ∧ s.lookup folder = some (Node.dir []) ∧
        s.remove folder = some (pruneStep basePath s folder)) := by
  unfold pruneStep
  by_cases hb : folder = basePath
  · simp [hb]
  · simp only [hb, if_false]
    unfold isDirEmpty
    cases hl : s.lookup folder with
    | none => simp
    | some d =>
      cases d with
      | file => simp
      | dir es =>
        cases es with
        | nil =>
          cases hr : s.remove folder with
          | none => simp
          | some v => simp [hb]
        | cons x xs => simp

mutual
theorem prune_of_no_file : ∀ (n : Node), n.isDir = true → n.hasFile = false →
    n.prune = Node.dir []
  | .file, h, _ => by simp [Node.isDir] at h
  | .dir es, _, h => by
    simp only [Node.hasFile] at h
    simp only [Node.prune, pruneEntries_of_no_file es h]
theorem pruneEntries_of_no_file : ∀ (es : List (String × Node)),
    entriesHaveFile es = false → pruneEntries es = []
  | [], _ => by simp [pruneEntries]
  | (name, n) :: rest, h => by
    simp only [entriesHaveFile, Bool.or_eq_false_iff] at h
    have hd : n.isDir = true := by
      cases n with
      | file => simp [Node.hasFile] at h
      | dir es' => rfl
    simp only [pruneEntries, prune_of_no_file n hd h.1, Node.isEmptyDir, if_true]
    exact pruneEntries_of_no_file rest h.2
end

theorem pruneEntries_names : ∀ (es : List (String × Node)),
    ∀ x ∈ (pruneEntries es).map Prod.fst, x ∈ es.map Prod.fst
  | [], x, hx => by simp [pruneEntries] at hx
  | (name, n) :: rest, x, hx => by
    simp only [pruneEntries] at hx
    split at hx
    · exact List.mem_cons_of_mem _ (pruneEntries_names rest x hx)
    · simp only [List.map_cons, List.mem_cons] at hx ⊢
      rcases hx with h | h
      · exact Or.inl h
      · exact Or.inr (pruneEntries_names rest x h)

theorem lookupEntries_of_not_mem (c : String) (p : Path) :
    ∀ (es : List (String × Node)), c ∉ es.map Prod.fst → lookupEntries es c p = none
  | [], _ => by simp [lookupEntries]
  | (name, n) :: rest, h => by
    simp only [List.map_cons, List.mem_cons, not_or] at h
    have hne : ¬ name = c := fun heq => h.1 heq.symm
    simp only [lookupEntries, hne, if_false]
    exact lookupEntries_of_not_mem c p rest h.2

theorem prune_lookup_none :
    ∀ (rel : Path) (n d : Node), n.WF → rel ≠ [] → n.lookup rel = some d →
      d.isDir = true → d.hasFile = false → n.prune.lookup rel = none
  | [], _, _, _, h, _, _, _ => absurd rfl h
  | c :: q, .file, d, _, _, h, _, _ => by simp [Node.lookup] at h
  | c :: q, .dir es, d, hwf, _, h, hd, hf => by
    simp only [Node.lookup] at h
    simp only [Node.WF] at hwf
    simp only [Node.prune, Node.lookup]
    induction es with
    | nil => simp [lookupEntries] at h
    | cons x es ih =>
      obtain ⟨name, m⟩ := x
      simp only [entriesWF] at hwf
      obtain ⟨hname, hm, hrest⟩ := hwf
      simp only [lookupEntries] at h
      simp only [pruneEntries]
      by_cases hc : name = c
      · simp only [hc, if_true] at h
        have hnone : lookupEntries (pruneEntries es) c q = none := by
          apply lookupEntries_of_not_mem
          intro hmem
          exact hname (hc ▸ pruneEntries_names es c hmem)
        split
        · exact hnone
        · rename_i hne
          simp only [lookupEntries, hc, if_true]
          cases q with
          | nil =>
            rw [lookup_nil] at h
            cases Option.some.inj h
            rw [prune_of_no_file d hd hf] at hne
            simp [Node.isEmptyDir] at hne
          | cons c2 q2 =>
            exact prune_lookup_none (c2 :: q2) m d hm (by simp) h hd hf
      · simp only [hc, if_false] at h
        split
        · exact ih hrest h
        · simp only [lookupEntries, hc, if_false]
          exact ih hrest h

theorem prune_isDir (n : Node) : n.prune.isDir = n.isDir := by
  cases n <;> simp [Node.prune, Node.isDir]

/-- C7: for a well-formed directory tree `root` at `basePath`, `removeEmptyFolders` processes
every directory of the tree and none before one of its descendants; a step of its loop
changes the filesystem only by removing a directory that is not `basePath` and has no entries
at that moment; the call succeeds, `basePath` is still there afterwards, and every directory
strictly below it whose subtree holds no file is gone after the single pass (the filesystem
is the one with the tree at `basePath` pruned). -/
theorem removeEmptyFolders_prunes (basePath : Path) (fs root : Node)
    (hroot : fs.lookup basePath = some root) (hwf : root.WF) :
    (∀ rel d, root.lookup rel = some d → d.isDir = true →
      basePath ++ rel ∈ (walkDirs basePath root).reverse) ∧
    (walkDirs basePath root).reverse.Pairwise (fun a b => ¬ a <+: b) ∧
    (∀ (s : Node) (folder : Path), pruneStep basePath s folder = s ∨
      (folder ≠ basePath ∧ s.lookup folder = some (Node.dir []) ∧
        s.remove folder = some (pruneStep basePath s folder))) ∧
    ∃ fs', removeEmptyFolders basePath fs = some fs' ∧
      fs' = fs.replace basePath root.prune ∧
      fs'.lookup basePath = some root.prune ∧ root.prune.isDir = root.isDir ∧
      ∀ rel d, rel ≠ [] → root.lookup rel = some d → d.isDir = true → d.hasFile = false →
        fs'.lookup (basePath ++ rel) = none := by
  refine ⟨?_, ?_, pruneStep_cases basePath, fs.replace basePath root.prune,
    removeEmptyFolders_eq basePath fs root hroot hwf, rfl,
    lookup_replace _ basePath fs root hroot, prune_isDir root, ?_⟩
  · intro rel d h hd
    exact List.mem_reverse.mpr (walkDirs_complete rel root basePath d h hd)
  · rw [List.pairwise_reverse]
    exact walkDirs_pairwise root basePath hwf
  · intro rel d hrel h hd hf
    rw [lookup_append, lookup_replace _ basePath fs root hroot]
    exact prune_lookup_none rel root d hwf hrel h hd hf

/-- C7 on `root/A/B`: the folders are processed in the order `B`, `A`, `root`; `B` and then
`A` are removed and `root` remains. -/
theorem removeEmptyFolders_prunes_witness :
    (walkDirs ["root"] nestedRoot).reverse = [["root", "A", "B"], ["root", "A"], ["root"]] ∧
    pruneStep ["root"] nestedFs ["root", "A", "B"] =
      Node.dir [("root", Node.dir [("A", Node.dir [])])] ∧
    pruneStep ["root"] (Node.dir [("root", Node.dir [("A", Node.dir [])])]) ["root", "A"] =
      Node.dir [("root", Node.dir [])] ∧
    removeEmptyFolders ["root"] nestedFs = some (Node.dir [("root", Node.dir [])]) ∧
    ∃ fs', removeEmptyFolders ["root"] nestedFs = some fs' ∧
      fs' = nestedFs.replace ["root"] nestedRoot.prune ∧
      fs'.lookup ["root"] = some nestedRoot.prune ∧
      nestedRoot.prune.isDir = nestedRoot.isDir ∧
      ∀ rel d, rel ≠ [] → nestedRoot.lookup rel = some d → d.isDir = true →
        d.hasFile = false → fs'.lookup (["root"] ++ rel) = none :=
  ⟨rfl, rfl, rfl, rfl,
    (removeEmptyFolders_prunes ["root"] nestedFs nestedRoot rfl
      (by simp [nestedRoot, Node.WF, entriesWF])).2.2.2⟩

/-! ## Theorems: stability of the sort -/

/-- C9 as stated fails: on S1E2, a second file of S1E2, S1E1 the sort returns the two tied
episodes in reversed order, and with `KeepLatestEpisodes = 1` the copy, second in the input,
is deleted where a stable sort would delete the first. -/
theorem sortEpisodes_not_stable :
    sortEpisodesByIndexNumber [ep 2, epCopy, ep 1] = [ep 1, epCopy, ep 2] ∧
    ¬ StableOn sortEpisodesByIndexNumber [ep 2, epCopy, ep 1] ∧
    selectGroup 1 [ep 2, epCopy, ep 1] = [ep 1, epCopy] := by
  refine ⟨by decide, ?_, by decide⟩
  intro h
  have h12 := h 1 2
  revert h12
  decide

/-- C9, amended: `sortEpisodesByIndexNumber` returns a permutation of its input in ascending
order of `(ParentIndexNumber, IndexNumber)`; input already in that order is returned
unchanged, so there tied episodes keep their input order. -/
theorem sortEpisodes_sorted_perm (episodes : List EmbyItem) :
    (sortEpisodesByIndexNumber episodes).Perm episodes ∧
    (sortEpisodesByIndexNumber episodes).Pairwise keyLe ∧
    (episodes.Pairwise keyLe →
      sortEpisodesByIndexNumber episodes = episodes ∧
        StableOn sortEpisodesByIndexNumber episodes) :=
  ⟨sortEpisodes_perm episodes, sortEpisodes_sorted episodes, fun h =>
    ⟨sortEpisodes_of_sorted episodes h, fun p n => by
      rw [sortEpisodes_of_sorted episodes h]⟩⟩

/-- C9, amended, on an input in ascending order with a tie. -/
theorem sortEpisodes_sorted_perm_witness :
    sortEpisodesByIndexNumber [ep 1, ep 2, epCopy] = [ep 1, ep 2, epCopy] ∧
      StableOn sortEpisodesByIndexNumber [ep 1, ep 2, epCopy] :=
  (sortEpisodes_sorted_perm [ep 1, ep 2, epCopy]).2.2 (by decide)

end EmbyCleaner
